import Mathlib

/-!
# Feature detection of an RGB image: line-segment merging, feature export, preprocessing

A shallow embedding of the custom logic of the repository
(`LineDetection.cpp`, `Detection.cpp`, `CommonProcesses.cpp`, `CornerDetection.cpp`)
and theorems about it.

Conventions of the embedding.

* `cv::Vec4i` is a record of four integers; `int` is modelled by `Int` (coordinates produced by
  the line extraction on the 800x600 canvas are far from the 32-bit limits).
* `double` values that depend on the C library (`std::atan2`, the rounded subtraction, the
  constant `CV_PI / 180.0 * 8.0`) are supplied by a record `Numerics F` over an arbitrary
  carrier `F`, so that every theorem stated for all `N : Numerics F` holds for whatever the
  floating-point unit computes.
* `cv::Point (p + q) * 0.5` converts each coordinate with `saturate_cast<int>(double)`, which is
  `cvRound`: round to nearest, ties to even.  The halved sum of two integers is exact in
  `double`, so `halfRound` is exact integer arithmetic.
* `cv::norm(p) > 10.0` on an integer point is `sqrt((double)x*x + (double)y*y) > 10.0`; the
  IEEE square root is correctly rounded and monotone and `sqrt 100 = 10` exactly, so the test is
  `x*x + y*y > 100` in integers.
* `std::vector` is a `List`; `erase(begin() + k)` is `List.eraseIdx`.
* `std::ofstream` is a buffered stream: `OfStream` keeps the characters that have reached the
  file apart from those pending in its buffer, which go to the device when the buffer
  overflows and when the stream is destroyed; `fail()` reports a failed transfer only.
-/

namespace FeatureDetection

/-! ## Data model -/

/-- A line segment as stored in `std::vector<cv::Vec4i> lines`:
`line[0], line[1]` is the start point and `line[2], line[3]` the end point. -/
structure Vec4i where
  x1 : Int
  y1 : Int
  x2 : Int
  y2 : Int
deriving DecidableEq, Repr

/-- The floating-point primitives `mergeLines` relies on, over a carrier `F` of `double` values. -/
structure Numerics (F : Type) where
  /-- The value of `std::atan2(dy, dx)` on two `int` arguments (first argument `dy`). -/
  atan2 : Int → Int → F
  /-- The value of `x - y` on `double`. -/
  sub : F → F → F
  /-- The value of `std::abs(x)` on `double`. -/
  abs : F → F
  /-- The outcome of `x > y` on `double`. -/
  gt : F → F → Bool
  /-- The constant `angleThreshold = CV_PI / 180.0 * 8.0`. -/
  angleThreshold : F

/-- An image (`cv::Mat`) with value semantics: width, height, channel count and the pixel
payload.  Every assignment in the sources either clones or takes over a freshly computed
matrix, so no two fields ever share a buffer that is written to. -/
structure Mat where
  cols : Nat
  rows : Nat
  channels : Nat
  data : List Nat
deriving DecidableEq, Repr

/-- The fields of class `CommonProcesses`: the working buffer `RGBPic` and the pristine copy
`orginalPic`. -/
structure CommonProcesses where
  RGBPic : Mat
  orginalPic : Mat
deriving DecidableEq, Repr

/-- The fields of class `LineDetection` (which derives from `Detection`, itself deriving from
`CommonProcesses` without adding fields). -/
structure LineDetection extends CommonProcesses where
  output : Mat
  threshold : Int
  lines : List Vec4i
  edges : Mat
  cannyOutput : Mat
  tempLines : List Vec4i
  visualization : Mat

/-- The fields of class `CornerDetection`; a `cv::Point2f` is a pair of rationals and the
`double` parameters are rationals. -/
structure CornerDetection extends CommonProcesses where
  output : Mat
  corners : List (ℚ × ℚ)
  qualityLevel : ℚ
  minDistance : ℚ
  blockSize : Int
  useHarrisDetector : Bool
  k : ℚ

/-- The image-processing primitives of the external library, as called by the sources. -/
structure Primitives where
  /-- The result `dst` of `cv::GaussianBlur(src, dst, cv::Size(5, 5), 1.5)`. -/
  GaussianBlur : Mat → Mat
  /-- The result `dst` of `cv::bilateralFilter(src, dst, 9, 75, 75)`. -/
  bilateralFilter : Mat → Mat
  /-- The result `dst` of `cv::resize(src, dst, cv::Size(width, height))` with linear
  interpolation. -/
  resize : Mat → Nat → Nat → Mat
  /-- The result `dst` of `cv::cvtColor(src, dst, cv::COLOR_BGR2GRAY)`. -/
  cvtColorBGR2GRAY : Mat → Mat
  /-- The result `dst` of `cv::cvtColor(src, dst, cv::COLOR_GRAY2BGR)`. -/
  cvtColorGRAY2BGR : Mat → Mat
  /-- The result `edges` of `cv::Canny(image, edges, threshold1, threshold2, 3)`. -/
  Canny : Mat → Int → Int → Mat
  /-- The segments found by `cv::HoughLinesP(edges, lines, 0.1, CV_PI / 180, 3, 15, 10)`. -/
  HoughLinesP : Mat → List Vec4i
  /-- The corners found by `cv::goodFeaturesToTrack(image, corners, maxCorners, qualityLevel,
  minDistance, cv::Mat(), blockSize, useHarrisDetector, k)`. -/
  goodFeaturesToTrack : Mat → Nat → ℚ → ℚ → Int → Bool → ℚ → List (ℚ × ℚ)
  /-- The image after `cv::line(img, start, end, cv::Scalar(0, 255, 0), 5)`. -/
  line : Mat → Vec4i → Mat
  /-- The image after `cv::circle(img, center, 5, cv::Scalar(0, 255, 0), -1)`. -/
  circle : Mat → ℚ × ℚ → Mat

/-- The shape contracts of the primitives used by the preprocessing: blur and bilateral filter
keep size and channel count, resize yields the requested size and keeps the channel count,
and the conversion to gray of a 3- or 4-channel image keeps the size and yields one channel. -/
structure Primitives.ShapeContract (P : Primitives) : Prop where
  blur_shape : ∀ m, (P.GaussianBlur m).cols = m.cols ∧ (P.GaussianBlur m).rows = m.rows ∧
    (P.GaussianBlur m).channels = m.channels
  bilateral_shape : ∀ m, (P.bilateralFilter m).cols = m.cols ∧
    (P.bilateralFilter m).rows = m.rows ∧ (P.bilateralFilter m).channels = m.channels
  resize_shape : ∀ m w h, (P.resize m w h).cols = w ∧ (P.resize m w h).rows = h ∧
    (P.resize m w h).channels = m.channels
  gray_shape : ∀ m, (m.channels = 3 ∨ m.channels = 4) →
    (P.cvtColorBGR2GRAY m).cols = m.cols ∧ (P.cvtColorBGR2GRAY m).rows = m.rows ∧
      (P.cvtColorBGR2GRAY m).channels = 1

/-! ## `LineDetection::mergeLines` -/

namespace LineDetection

/-- The value of `saturate_cast<int>(s * 0.5)` for an integer `s`: half of `s`, rounded to the
nearest integer with ties going to the even neighbour (`cvRound`). -/
def halfRound (s : Int) : Int :=
  let q := s / 2
  if s % 2 = 0 then q else if q % 2 = 0 then q else q + 1

/-- The point `cv::Point midPoint = (pt1 + pt2) * 0.5` of a segment, an integer point. -/
def midPoint (l : Vec4i) : Int × Int :=
  (halfRound (l.x1 + l.x2), halfRound (l.y1 + l.y2))

/-- The square of `cv::norm(midPoint1 - midPoint2)`. -/
def midDistSq (l1 l2 : Vec4i) : Int :=
  ((midPoint l1).1 - (midPoint l2).1) * ((midPoint l1).1 - (midPoint l2).1) +
    ((midPoint l1).2 - (midPoint l2).2) * ((midPoint l1).2 - (midPoint l2).2)

/-- The raw angle `std::atan2(pt2.y - pt1.y, pt2.x - pt1.x)` of a segment, in radians. -/
def rawAngle {F : Type} (N : Numerics F) (l : Vec4i) : F :=
  N.atan2 (l.y2 - l.y1) (l.x2 - l.x1)

/-- The value `angleDiff = std::abs(atan2(..line1..) - atan2(..line2..))`. -/
def angleDiff {F : Type} (N : Numerics F) (l1 l2 : Vec4i) : F :=
  N.abs (N.sub (rawAngle N l1) (rawAngle N l2))

/-- The first guard of the inner loop: `angleDiff > angleThreshold` (the pair is skipped). -/
def angleFar {F : Type} (N : Numerics F) (l1 l2 : Vec4i) : Bool :=
  N.gt (angleDiff N l1 l2) N.angleThreshold

/-- The second guard of the inner loop: `distance > distanceThreshold` with
`distanceThreshold = 10.0` (the pair is skipped). -/
def distFar (l1 l2 : Vec4i) : Bool :=
  decide (100 < midDistSq l1 l2)

/-- The merged segment `cv::Vec4i(pt1.x, pt1.y, pt4.x, pt4.y)`. -/
def mergedLine (l1 l2 : Vec4i) : Vec4i :=
  ⟨l1.x1, l1.y1, l2.x2, l2.y2⟩

/-- The inner loop `for (size_t j = ...; j < lines.size(); ++j)` of `mergeLines`, entered at
index `j` with `line1` the copy of `lines[i]` taken when the outer iteration started.
Returns the final `lines` and `mergedLines`.  On a merge the body erases index `j`, then
index `i`, and executes `--j` before the loop header executes `++j`; the loop is entered
with `j = i + 1`, so `j` is positive at the decrement and `j - 1 + 1` is `j`. -/
def innerLoop {F : Type} (N : Numerics F) (line1 : Vec4i) (i : Nat) (j : Nat)
    (lines mergedLines : List Vec4i) : List Vec4i × List Vec4i :=
  if h : j < lines.length then
    let line2 := lines[j]
    if angleFar N line1 line2 then
      innerLoop N line1 i (j + 1) lines mergedLines
    else if distFar line1 line2 then
      innerLoop N line1 i (j + 1) lines mergedLines
    else
      innerLoop N line1 i (j - 1 + 1) ((lines.eraseIdx j).eraseIdx i)
        (mergedLines ++ [mergedLine line1 line2])
  else
    (lines, mergedLines)
termination_by lines.length - j
decreasing_by
  all_goals simp_wf
  · omega
  · have h1 : (lines.eraseIdx j).length = lines.length - 1 := by
      rw [List.length_eraseIdx, if_pos h]
    have h2 : ((lines.eraseIdx j).eraseIdx i).length ≤ (lines.eraseIdx j).length :=
      List.length_eraseIdx_le _ _
    omega

/-- The outer loop `for (size_t i = ...; i < lines.size(); ++i)` of `mergeLines`, entered at
index `i`: it copies `lines[i]` into `line1`, runs the inner loop from `j = i + 1`, and goes on
with `i + 1` on the list the inner loop left. -/
def outerLoop {F : Type} (N : Numerics F) (i : Nat) (lines mergedLines : List Vec4i) :
    List Vec4i × List Vec4i :=
  if h : i < lines.length then
    let line1 := lines[i]
    let r := innerLoop N line1 i (i + 1) lines mergedLines
    outerLoop N (i + 1) r.1 r.2
  else
    (lines, mergedLines)
termination_by lines.length - i
decreasing_by
  simp_wf
  have key : ∀ (l1 : Vec4i) (i j : Nat) (ls ms : List Vec4i),
      (innerLoop N l1 i j ls ms).1.length ≤ ls.length := by
    intro l1 i j ls ms
    induction j, ls, ms using innerLoop.induct N l1 i with
    | case1 j ls ms h line2 hfar ih => rw [innerLoop]; simpa [h, line2, hfar] using ih
    | case2 j ls ms h line2 hfar hd ih =>
      rw [innerLoop]; simpa [h, line2, hfar, hd] using ih
    | case3 j ls ms h line2 hfar hd ih =>
      rw [innerLoop]
      have h2 : ((ls.eraseIdx j).eraseIdx i).length ≤ ls.length :=
        le_trans (List.length_eraseIdx_le _ _) (List.length_eraseIdx_le _ _)
      simp only [h, line2, hfar, hd, dite_true]
      exact le_trans (by simpa [line2] using ih) h2
    | case4 j ls ms h => rw [innerLoop]; simp [h]
  have := key lines[i] i (i + 1) lines mergedLines
  omega

/-- The method `LineDetection::mergeLines`, as a function from the content of `lines` before the
call to its content after: the sweep, then
`lines.insert(lines.end(), mergedLines.begin(), mergedLines.end())`. -/
def mergeLines {F : Type} (N : Numerics F) (lines : List Vec4i) : List Vec4i :=
  let r := outerLoop N 0 lines []
  r.1 ++ r.2

end LineDetection

/-! ## Laws of the numeric primitives and auxiliary notions -/

/-- A law of the numeric primitives: a value subtracted from itself gives a difference that is
not above the angle threshold (on `double`, `x - x` is `0` and the threshold is positive). -/
def Numerics.ZeroDiffClose {F : Type} (N : Numerics F) : Prop :=
  ∀ x : F, N.gt (N.abs (N.sub x x)) N.angleThreshold = false

/-- A law of the numeric primitives: the angles `atan2(dy, dx)` and `atan2(-dy, -dx)` of a
non-zero direction and of its opposite differ by more than the angle threshold (they differ by
`π`, up to rounding). -/
def Numerics.ReverseFar {F : Type} (N : Numerics F) : Prop :=
  ∀ dy dx : Int, ¬ (dy = 0 ∧ dx = 0) →
    N.gt (N.abs (N.sub (N.atan2 dy dx) (N.atan2 (-dy) (-dx)))) N.angleThreshold = true

/-- The numeric primitives in exact real arithmetic: `atan2(dy, dx)` is the argument of
`dx + i dy` in `(-π, π]` and the threshold is `π / 180 * 8`. -/
noncomputable def realNumerics : Numerics ℝ where
  atan2 := fun dy dx => Complex.arg ⟨(dx : ℝ), (dy : ℝ)⟩
  sub := fun x y => x - y
  abs := fun x => |x|
  gt := fun x y => decide (y < x)
  angleThreshold := Real.pi / 180 * 8

namespace LineDetection

/-- The segment with start and end point swapped. -/
def reverse (s : Vec4i) : Vec4i :=
  ⟨s.x2, s.y2, s.x1, s.y1⟩

/-- The squared Euclidean distance between the exact midpoints `(start + end) / 2` of two
segments, over the rationals (the code measures `midDistSq`, between rounded midpoints). -/
def exactMidDistSq (l1 l2 : Vec4i) : ℚ :=
  (((l1.x1 + l1.x2 : Int) : ℚ) / 2 - ((l2.x1 + l2.x2 : Int) : ℚ) / 2) ^ 2 +
    (((l1.y1 + l1.y2 : Int) : ℚ) / 2 - ((l2.y1 + l2.y2 : Int) : ℚ) / 2) ^ 2

end LineDetection

/-! ## Feature coordinates -/

namespace LineDetection

/-- The method `LineDetection::getanalyzeFeatures` on the content of `lines`: for each segment in
order, `emplace_back(x1, y1)` then `emplace_back(x2, y2)`. -/
def getanalyzeFeatures (lines : List Vec4i) : List (Int × Int) :=
  lines.foldl (fun coordinates line => (coordinates ++ [(line.x1, line.y1)]) ++ [(line.x2, line.y2)]) []

/-- The segment list read back from a coordinate list: consecutive points are paired as
start and end point. -/
def pairSegments : List (Int × Int) → List Vec4i
  | p :: q :: rest => ⟨p.1, p.2, q.1, q.2⟩ :: pairSegments rest
  | _ => []

end LineDetection

/-! ## Preprocessing and analysis -/

namespace CommonProcesses

/-- The method `CommonProcesses::setRGBPic`: both fields become clones of `data`. -/
def setRGBPic (_s : CommonProcesses) (data : Mat) : CommonProcesses :=
  { orginalPic := data, RGBPic := data }

/-- The method `CommonProcesses::getOrginalPic`. -/
def getOrginalPic (s : CommonProcesses) : Mat := s.orginalPic

/-- The method `CommonProcesses::getRGBPic`. -/
def getRGBPic (s : CommonProcesses) : Mat := s.RGBPic

/-- The method `CommonProcesses::filterNoise`. -/
def filterNoise (P : Primitives) (s : CommonProcesses) : CommonProcesses :=
  { s with RGBPic := P.GaussianBlur s.RGBPic }

/-- The method `CommonProcesses::denoiseBilateralFilter`. -/
def denoiseBilateralFilter (P : Primitives) (s : CommonProcesses) : CommonProcesses :=
  { s with RGBPic := P.bilateralFilter s.RGBPic }

/-- The method `CommonProcesses::rescale`. -/
def rescale (P : Primitives) (width height : Nat) (s : CommonProcesses) : CommonProcesses :=
  { s with RGBPic := P.resize s.RGBPic width height }

/-- The method `CommonProcesses::convertToGrays`. -/
def convertToGrays (P : Primitives) (s : CommonProcesses) : CommonProcesses :=
  { s with RGBPic := P.cvtColorBGR2GRAY s.RGBPic }

end CommonProcesses

namespace Detection

open CommonProcesses

/-- The method `Detection::commonOperations`: `filterNoise(); rescale(800, 600);
convertToGrays(); denoiseBilateralFilter();`. -/
def commonOperations (P : Primitives) (s : CommonProcesses) : CommonProcesses :=
  let s1 := filterNoise P s
  let s2 := rescale P 800 600 s1
  let s3 := convertToGrays P s2
  denoiseBilateralFilter P s3

end Detection

namespace LineDetection

/-- The method `LineDetection::analyzeFeatures`.  The local `cv::Mat edges` shadows the field of
the same name, which is left as it was. -/
def analyzeFeatures {F : Type} (P : Primitives) (N : Numerics F) (s : LineDetection) :
    LineDetection :=
  let base := Detection.commonOperations P s.toCommonProcesses
  let edges := P.Canny base.getRGBPic s.threshold (s.threshold * 3)
  let tempLines := P.HoughLinesP edges
  let lines := mergeLines N tempLines
  let visualization := P.resize base.getOrginalPic 800 600
  let output := lines.foldl (fun img line => P.line img line) (P.cvtColorGRAY2BGR base.getRGBPic)
  { s with
    toCommonProcesses := base
    tempLines := tempLines
    lines := lines
    cannyOutput := edges
    visualization := visualization
    output := output }

end LineDetection

namespace CornerDetection

/-- The method `CornerDetection::analyzeFeatures`. -/
def analyzeFeatures (P : Primitives) (s : CornerDetection) : CornerDetection :=
  let base := Detection.commonOperations P s.toCommonProcesses
  let corners := P.goodFeaturesToTrack base.getRGBPic 200 s.qualityLevel s.minDistance
    s.blockSize s.useHarrisDetector s.k
  let output := corners.foldl (fun img corner => P.circle img corner)
    (P.cvtColorGRAY2BGR base.getRGBPic)
  { s with
    toCommonProcesses := base
    corners := corners
    output := output }

end CornerDetection

/-- A concrete instance of the primitives that acts on the shape only: blur, bilateral filter
and the drawing primitives return their input, resize sets the size, the colour conversions
set the channel count, and the detectors find nothing. -/
def shapeOnlyPrimitives : Primitives where
  GaussianBlur := fun m => m
  bilateralFilter := fun m => m
  resize := fun m w h => { m with cols := w, rows := h }
  cvtColorBGR2GRAY := fun m => { m with channels := 1 }
  cvtColorGRAY2BGR := fun m => { m with channels := 3 }
  Canny := fun m _ _ => { m with channels := 1 }
  HoughLinesP := fun _ => []
  goodFeaturesToTrack := fun _ _ _ _ _ _ _ => []
  line := fun m _ => m
  circle := fun m _ => m

/-! ## Feature export -/

namespace Detection

/-- The character of a decimal digit `d < 10`. -/
def digitChar (d : Nat) : Char := Char.ofNat (48 + d)

/-- The decimal text of a natural number, most significant digit first, without leading zeros. -/
def decimalNat (n : Nat) : List Char :=
  if n < 10 then [digitChar n] else decimalNat (n / 10) ++ [digitChar (n % 10)]
termination_by n
decreasing_by omega

/-- The text `outFile << v` writes for an `int` with the default formatting of the stream: the
decimal digits, after a minus sign when the value is negative. -/
def decimal (v : Int) : List Char :=
  if v < 0 then '-' :: decimalNat v.natAbs else decimalNat v.natAbs

/-- The text of one iteration `outFile << feature.first << "," << feature.second << "\n"`. -/
def featureLine (feature : Int × Int) : List Char :=
  decimal feature.1 ++ [','] ++ decimal feature.2 ++ ['\n']

/-- The state of a `std::ofstream` writing to a device: `file` holds the characters that have
reached the file, `pending` the characters still held in the buffer of the stream, `failed`
tells whether `fail()` holds, `room` is the number of characters the device still accepts (a
full disk has none), and `bufferSize` is the capacity of the buffer. -/
structure OfStream where
  file : List Char
  pending : List Char
  failed : Bool
  room : Nat
  bufferSize : Nat
deriving DecidableEq, Repr

namespace OfStream

/-- The buffer is handed to the device.  When the device has no room for all of it, the part
that fits reaches the file, the rest is lost and the stream enters the failed state. -/
def flush (o : OfStream) : OfStream :=
  if o.pending.length ≤ o.room then
    { o with file := o.file ++ o.pending, pending := [], room := o.room - o.pending.length }
  else
    { o with file := o.file ++ o.pending.take o.room, pending := [], room := 0, failed := true }

/-- One insertion `outFile << text`: nothing on a failed stream; otherwise the characters go to
the buffer, which is handed to the device only when it overflows. -/
def put (o : OfStream) (text : List Char) : OfStream :=
  if o.failed then o
  else if o.bufferSize < o.pending.length + text.length then
    flush { o with pending := o.pending ++ text }
  else
    { o with pending := o.pending ++ text }

/-- The destructor of the stream at the end of `writeFeaturesToFile` (or while the exception
propagates): what is left in the buffer is handed to the device, and the outcome is reported
to nobody. -/
def close (o : OfStream) : OfStream :=
  o.flush

end OfStream

/-- The loop of `writeFeaturesToFile` over the features still to be written: the four
insertions of one feature, then the test `outFile.fail()`.  Returns the message of the
`std::runtime_error` when one is thrown, and the stream as the loop leaves it. -/
def writeLoop (filename : String) : List (Int × Int) → OfStream → Option String × OfStream
  | [], outFile => (none, outFile)
  | feature :: rest, outFile =>
    let o := (((outFile.put (decimal feature.1)).put [',']).put (decimal feature.2)).put ['\n']
    if o.failed then (some ("Failed to write data to file: " ++ filename), o)
    else writeLoop filename rest o

/-- The method `Detection::writeFeaturesToFile` on the feature list that `getanalyzeFeatures()`
returns.  `opens` tells whether `outFile.is_open()`; `bufferSize` and `room` describe the stream
and the device.  Returns the message of the exception when one is thrown (`none` when the
method returns normally, after printing its message of success), and the content of the file
once the stream has been destroyed. -/
def writeFeaturesToFile (opens : Bool) (bufferSize room : Nat) (filename : String)
    (features : List (Int × Int)) : Option String × List Char :=
  if !opens then (some ("Could not open the file for writing: " ++ filename), [])
  else
    let r := writeLoop filename features ⟨[], [], false, room, bufferSize⟩
    (r.1, r.2.close.file)

/-! ### Reading the exported text back

The repository has no reader of the exported file; the reader below follows the format
`<int>,<int>` per newline-terminated line, and is what the round trip is stated against. -/

/-- The value of a decimal digit character. -/
def digitVal (c : Char) : Option Nat :=
  if 48 ≤ c.toNat ∧ c.toNat ≤ 57 then some (c.toNat - 48) else none

/-- Reads decimal digits onto the accumulator `acc`; fails on any other character. -/
def parseNatAux : Nat → List Char → Option Nat
  | acc, [] => some acc
  | acc, c :: cs =>
    match digitVal c with
    | none => none
    | some d => parseNatAux (10 * acc + d) cs

/-- Reads a non-empty string of decimal digits. -/
def parseNat (cs : List Char) : Option Nat :=
  if cs = [] then none else parseNatAux 0 cs

/-- Reads `<int>`: decimal digits after an optional minus sign. -/
def parseInt : List Char → Option Int
  | [] => none
  | c :: cs =>
    if c = '-' then (parseNat cs).map (fun (n : Nat) => -(n : Int))
    else (parseNat (c :: cs)).map (fun (n : Nat) => (n : Int))

/-- Reads one line `<int>,<int>` (without its newline): the text before the first comma and
the text after it. -/
def parseLine (cs : List Char) : Option (Int × Int) :=
  match cs.dropWhile (fun c => c != ',') with
  | [] => none
  | _ :: second =>
    match parseInt (cs.takeWhile (fun c => c != ',')), parseInt second with
    | some x, some y => some (x, y)
    | _, _ => none

/-- Reads the text line by line, `cur` being the part of the current line already read; every
line ends with a newline and holds `<int>,<int>`. -/
def parseFeaturesAux : List Char → List Char → Option (List (Int × Int))
  | cur, [] => if cur = [] then some [] else none
  | cur, c :: rest =>
    if c = '\n' then
      match parseLine cur, parseFeaturesAux [] rest with
      | some feature, some features => some (feature :: features)
      | _, _ => none
    else parseFeaturesAux (cur ++ [c]) rest

/-- Reads a whole exported file. -/
def parseFeatures (text : List Char) : Option (List (Int × Int)) :=
  parseFeaturesAux [] text

end Detection

/-! ## Loading the image -/

namespace Mat

/-- The method `cv::Mat::empty()`: the matrix has no data or no element. -/
def empty (m : Mat) : Bool :=
  m.data.isEmpty || m.cols * m.rows == 0

end Mat

namespace CommonProcesses

/-- The method `CommonProcesses::readRGBFromFile` on the state `s`; `imread filename` is the
matrix that `cv::imread(filename, cv::IMREAD_COLOR)` returns (an empty one for a missing or
unreadable file).  Returns the state after the call and, when a `std::runtime_error` is
thrown, its message. -/
def readRGBFromFile (imread : String → Mat) (s : CommonProcesses) (filename : String) :
    CommonProcesses × Option String :=
  let image := imread filename
  if image.empty || (image.channels != 3 && image.channels != 4) then
    (s, some ("Could not open or find the image, or the number of channels is not supported: "
      ++ filename))
  else
    (s.setRGBPic image, none)

end CommonProcesses

/-! ## The merge test, and the sweep with its index assertions -/

namespace LineDetection

/-- The merge test of the inner loop as the code computes it: the pair is merged when neither
`continue` is taken, that is when `angleDiff > angleThreshold` is false and
`distance > distanceThreshold` is false. -/
def mergeTest {F : Type} (N : Numerics F) (l1 l2 : Vec4i) : Bool :=
  !angleFar N l1 l2 && !distFar l1 l2

/-- The segment `m` runs from the start point of the segment at some position `p` of `lines`
to the end point of the segment at some later position `q`. -/
def FromLaterPair (lines : List Vec4i) (m : Vec4i) : Prop :=
  ∃ (p q : Nat) (hp : p < lines.length) (hq : q < lines.length), p < q ∧
    m.x1 = lines[p].x1 ∧ m.y1 = lines[p].y1 ∧ m.x2 = lines[q].x2 ∧ m.y2 = lines[q].y2

/-- The inner loop of `mergeLines` with the preconditions of its index operations made
explicit; `none` stands for a violated precondition.  The read `lines[j]` asks for
`i < j < lines.size()`; the two erasures ask for `i < j < lines.size()` and for index `i` to
exist after index `j` has been erased; the decrement `--j` on `size_t` asks for `0 < j`. -/
def innerLoopChecked {F : Type} (N : Numerics F) (line1 : Vec4i) (i : Nat) (j : Nat)
    (lines mergedLines : List Vec4i) : Option (List Vec4i × List Vec4i) :=
  if h : j < lines.length then
    if i < j then
      let line2 := lines[j]
      if angleFar N line1 line2 then
        innerLoopChecked N line1 i (j + 1) lines mergedLines
      else if distFar line1 line2 then
        innerLoopChecked N line1 i (j + 1) lines mergedLines
      else if i < (lines.eraseIdx j).length ∧ 0 < j then
        innerLoopChecked N line1 i (j - 1 + 1) ((lines.eraseIdx j).eraseIdx i)
          (mergedLines ++ [mergedLine line1 line2])
      else none
    else none
  else
    some (lines, mergedLines)
termination_by lines.length - j
decreasing_by
  all_goals simp_wf
  · omega
  · have h1 : (lines.eraseIdx j).length = lines.length - 1 := by
      rw [List.length_eraseIdx, if_pos h]
    have h2 : ((lines.eraseIdx j).eraseIdx i).length ≤ (lines.eraseIdx j).length :=
      List.length_eraseIdx_le _ _
    omega

/-- The outer loop of `mergeLines` over the inner loop with assertions; the read `lines[i]`
is guarded by the loop condition `i < lines.size()`. -/
def outerLoopChecked {F : Type} (N : Numerics F) (i : Nat) (lines mergedLines : List Vec4i) :
    Option (List Vec4i × List Vec4i) :=
  if h : i < lines.length then
    let line1 := lines[i]
    match hr : innerLoopChecked N line1 i (i + 1) lines mergedLines with
    | none => none
    | some r => outerLoopChecked N (i + 1) r.1 r.2
  else
    some (lines, mergedLines)
termination_by lines.length - i
decreasing_by
  simp_wf
  have key : ∀ (l1 : Vec4i) (i j : Nat) (ls ms : List Vec4i) (r : List Vec4i × List Vec4i),
      innerLoopChecked N l1 i j ls ms = some r → r.1.length ≤ ls.length := by
    intro l1 i j ls ms
    induction j, ls, ms using innerLoopChecked.induct N l1 i with
    | case1 j ls ms h hij line2 hfar ih =>
      intro r hr
      rw [innerLoopChecked] at hr
      simp only [h, hij, line2, hfar, dite_true, if_true] at hr
      exact ih r hr
    | case2 j ls ms h hij line2 hfar hd ih =>
      intro r hr
      rw [innerLoopChecked] at hr
      simp only [h, hij, line2, hfar, hd, dite_true, if_true] at hr
      exact ih r (by simpa using hr)
    | case3 j ls ms h hij line2 hfar hd hb ih =>
      intro r hr
      rw [innerLoopChecked] at hr
      simp only [h, hij, line2, hfar, hd, hb, dite_true, if_true] at hr
      have h2 : ((ls.eraseIdx j).eraseIdx i).length ≤ ls.length :=
        le_trans (List.length_eraseIdx_le _ _) (List.length_eraseIdx_le _ _)
      exact le_trans (ih r (by simpa using hr)) h2
    | case4 j ls ms h hij line2 hfar hd hb =>
      intro r hr
      rw [innerLoopChecked] at hr
      simp [h, hij, line2, hfar, hd, hb] at hr
    | case5 j ls ms h hij =>
      intro r hr
      rw [innerLoopChecked] at hr
      simp [h, hij] at hr
    | case6 j ls ms h =>
      intro r hr
      rw [innerLoopChecked] at hr
      simp only [h, dite_false, Option.some.injEq] at hr
      rw [← hr]
  have := key lines[i] i (i + 1) lines mergedLines r hr
  omega

/-- The method `mergeLines` over the loops with assertions: `none` when some index
precondition is violated, the new content of `lines` otherwise. -/
def mergeLinesChecked {F : Type} (N : Numerics F) (lines : List Vec4i) :
    Option (List Vec4i) :=
  (outerLoopChecked N 0 lines []).map (fun r => r.1 ++ r.2)

end LineDetection

/-! ## A concrete instance of the numeric primitives -/

/-- The angle, in microradians, of a direction in the first octant (`0 ≤ n ≤ d`, `0 < d`):
the approximation `atan a ≈ a (π/4 + 0.273 (1 - a))` at `a = n / d`, whose error is below
`0.004` radians and which is exact (up to the unit) at `a = 0` and `a = 1`. -/
def octantAngle (n d : Int) : Int :=
  (n * (785398 * d + 273000 * (d - n))) / (d * d)

/-- A fixed-point stand-in for `std::atan2(dy, dx)`, in microradians, with values in
`(-π, π]`: the first-quadrant angle of `(|dx|, |dy|)`, reflected for `dx < 0` and negated for
`dy < 0`; `atan2(0, 0) = 0`. -/
def atan2Micro (dy dx : Int) : Int :=
  if dx = 0 ∧ dy = 0 then 0
  else
    let r := if |dy| ≤ |dx| then octantAngle |dy| |dx| else 1570796 - octantAngle |dx| |dy|
    let q := if dx < 0 then 3141593 - r else r
    if dy < 0 then -q else q

/-- A computable instance of the numeric primitives: angles are integers counting
microradians, subtraction, absolute value and comparison are exact, and the threshold is
`8` degrees, `139626` microradians. -/
def microNumerics : Numerics Int where
  atan2 := atan2Micro
  sub := fun x y => x - y
  abs := fun x => |x|
  gt := fun x y => decide (y < x)
  angleThreshold := 139626

end FeatureDetection

/-! ## Unfolding the loops of `mergeLines` -/

namespace FeatureDetection

namespace LineDetection

variable {F : Type}

/-- The inner loop ends when `j` has reached `lines.size()`. -/
theorem innerLoop_done (N : Numerics F) (line1 : Vec4i) (i j : Nat) (lines ms : List Vec4i)
    (h : ¬ j < lines.length) : innerLoop N line1 i j lines ms = (lines, ms) := by
  rw [innerLoop, dif_neg h]

/-- An iteration of the inner loop that takes one of the two `continue` statements. -/
theorem innerLoop_skip (N : Numerics F) (line1 : Vec4i) (i j : Nat) (lines ms : List Vec4i)
    (h : j < lines.length)
    (hfar : angleFar N line1 lines[j] = true ∨ distFar line1 lines[j] = true) :
    innerLoop N line1 i j lines ms = innerLoop N line1 i (j + 1) lines ms := by
  rw [innerLoop, dif_pos h]
  rcases hfar with hf | hf
  · simp [hf]
  · simp [hf]

/-- An iteration of the inner loop that merges. -/
theorem innerLoop_merge (N : Numerics F) (line1 : Vec4i) (i j : Nat) (lines ms : List Vec4i)
    (h : j < lines.length) (ha : angleFar N line1 lines[j] = false)
    (hd : distFar line1 lines[j] = false) :
    innerLoop N line1 i j lines ms =
      innerLoop N line1 i (j - 1 + 1) ((lines.eraseIdx j).eraseIdx i)
        (ms ++ [mergedLine line1 lines[j]]) := by
  rw [innerLoop, dif_pos h]
  simp [ha, hd]

/-- The outer loop ends when `i` has reached `lines.size()`. -/
theorem outerLoop_done (N : Numerics F) (i : Nat) (lines ms : List Vec4i)
    (h : ¬ i < lines.length) : outerLoop N i lines ms = (lines, ms) := by
  rw [outerLoop, dif_neg h]

/-- One iteration of the outer loop. -/
theorem outerLoop_step (N : Numerics F) (i : Nat) (lines ms : List Vec4i)
    (h : i < lines.length) :
    outerLoop N i lines ms =
      outerLoop N (i + 1) (innerLoop N lines[i] i (i + 1) lines ms).1
        (innerLoop N lines[i] i (i + 1) lines ms).2 := by
  rw [outerLoop, dif_pos h]

/-- What `mergeLines` does to a list of two segments: one test, and a merge when it passes. -/
theorem mergeLines_pair (N : Numerics F) (a b : Vec4i) :
    mergeLines N [a, b] =
      if angleFar N a b = true ∨ distFar a b = true then [a, b] else [mergedLine a b] := by
  unfold mergeLines
  rw [outerLoop_step N 0 [a, b] [] (by simp)]
  split_ifs with h
  · rw [innerLoop_skip N _ 0 1 [a, b] [] (by simp) (by simpa using h)]
    rw [innerLoop_done N _ 0 2 [a, b] [] (by simp)]
    rw [outerLoop_step N 1 [a, b] [] (by simp)]
    rw [innerLoop_done N _ 1 2 [a, b] [] (by simp)]
    rw [outerLoop_done N 2 [a, b] [] (by simp)]
    simp
  · have h' : angleFar N a b = false ∧ distFar a b = false := by
      simpa [not_or] using h
    rw [innerLoop_merge N _ 0 1 [a, b] [] (by simp) (by simpa using h'.1) (by simpa using h'.2)]
    rw [innerLoop_done N _ 0 _ _ _ (by simp)]
    rw [outerLoop_done N 1 _ _ (by simp)]
    simp

/-- When every later segment is skipped on its angle, the inner loop changes nothing. -/
theorem innerLoop_all_far (N : Numerics F) (line1 : Vec4i) (i : Nat) (lines ms : List Vec4i)
    (hfar : ∀ (j : Nat) (hj : j < lines.length), i < j → angleFar N line1 lines[j] = true) :
    ∀ (n j : Nat), lines.length - j = n → i < j →
      innerLoop N line1 i j lines ms = (lines, ms) := by
  intro n
  induction n with
  | zero =>
    intro j hn _
    exact innerLoop_done N line1 i j lines ms (by omega)
  | succ n ih =>
    intro j hn hij
    have hj : j < lines.length := by omega
    rw [innerLoop_skip N line1 i j lines ms hj (Or.inl (hfar j hj hij))]
    exact ih (j + 1) (by omega) (by omega)

/-- When every pair of the list is skipped on its angle, the sweep changes nothing. -/
theorem outerLoop_all_far (N : Numerics F) (lines ms : List Vec4i)
    (h : lines.Pairwise (fun a b => angleFar N a b = true)) :
    ∀ (n i : Nat), lines.length - i = n → outerLoop N i lines ms = (lines, ms) := by
  intro n
  induction n with
  | zero =>
    intro i hn
    exact outerLoop_done N i lines ms (by omega)
  | succ n ih =>
    intro i hn
    have hi : i < lines.length := by omega
    have hin : innerLoop N lines[i] i (i + 1) lines ms = (lines, ms) :=
      innerLoop_all_far N lines[i] i lines ms
        (fun j hj hij => List.pairwise_iff_getElem.mp h i j hi hj hij)
        (lines.length - (i + 1)) (i + 1) rfl (by omega)
    rw [outerLoop_step N i lines ms hi, hin]
    exact ih (i + 1) (by omega)

end LineDetection

end FeatureDetection

/-! ## Laws of the concrete and of the exact numeric primitives -/

namespace FeatureDetection

/-- The fixed-point instance satisfies `ZeroDiffClose`. -/
theorem microNumerics_zeroDiffClose : microNumerics.ZeroDiffClose := by
  intro x
  simp [microNumerics]

/-- The fixed-point instance satisfies `ReverseFar`: opposite directions differ by
`3141593` or `3141592` microradians. -/
theorem microNumerics_reverseFar : microNumerics.ReverseFar := by
  intro dy dx h
  have h1 : ¬ (dx = 0 ∧ dy = 0) := fun hh => h ⟨hh.2, hh.1⟩
  have h2 : ¬ (-dx = 0 ∧ -dy = 0) := fun hh => h ⟨by omega, by omega⟩
  simp only [microNumerics, atan2Micro, if_neg h1, if_neg h2, abs_neg, decide_eq_true_eq]
  have hr0 : dy = 0 →
      (if |dy| ≤ |dx| then octantAngle |dy| |dx| else 1570796 - octantAngle |dx| |dy|) = 0 := by
    intro hy
    subst hy
    simp [octantAngle]
  have hr1 : dx = 0 → dy ≠ 0 →
      (if |dy| ≤ |dx| then octantAngle |dy| |dx| else 1570796 - octantAngle |dx| |dy|)
        = 1570796 := by
    intro hx hy
    subst hx
    simp [octantAngle, hy]
  generalize (if |dy| ≤ |dx| then octantAngle |dy| |dx|
    else 1570796 - octantAngle |dx| |dy|) = r at hr0 hr1
  rw [lt_abs]
  rcases lt_trichotomy dx 0 with hx | hx | hx <;> rcases lt_trichotomy dy 0 with hy | hy | hy
  all_goals split_ifs <;> omega

/-- The exact real primitives satisfy `ZeroDiffClose`. -/
theorem realNumerics_zeroDiffClose : realNumerics.ZeroDiffClose := by
  intro x
  simp only [realNumerics, sub_self, abs_zero, decide_eq_false_iff_not, not_lt]
  positivity

/-- The exact real primitives satisfy `ReverseFar`: the arguments of `z` and `-z` differ by
`π`, which is more than `π / 180 * 8`. -/
theorem realNumerics_reverseFar : realNumerics.ReverseFar := by
  intro dy dx h
  simp only [realNumerics, decide_eq_true_eq]
  have hpi := Real.pi_pos
  set z : ℂ := ⟨(dx : ℝ), (dy : ℝ)⟩ with hz
  have hneg : (⟨((-dx : Int) : ℝ), ((-dy : Int) : ℝ)⟩ : ℂ) = -z := by
    apply Complex.ext <;> simp [hz]
  rw [hneg]
  have key : |Complex.arg z - Complex.arg (-z)| = Real.pi := by
    rcases lt_trichotomy (dy : ℝ) 0 with hy | hy | hy
    · have him : z.im < 0 := hy
      rw [Complex.arg_neg_eq_arg_add_pi_of_im_neg him]
      rw [show Complex.arg z - (Complex.arg z + Real.pi) = -Real.pi by ring, abs_neg,
        abs_of_pos hpi]
    · have hdy : dy = 0 := by exact_mod_cast hy
      have hdx : dx ≠ 0 := fun hx => h ⟨hdy, hx⟩
      have hzre : z = ((dx : ℝ) : ℂ) := by
        apply Complex.ext <;> simp [hz, hy]
      rcases lt_or_gt_of_ne hdx with hx | hx
      · have hx' : (dx : ℝ) < 0 := by exact_mod_cast hx
        have hnz : -z = ((-(dx : ℝ) : ℝ) : ℂ) := by rw [hzre]; simp
        rw [hnz, Complex.arg_ofReal_of_nonneg (by linarith), hzre,
          Complex.arg_ofReal_of_neg hx']
        simp [abs_of_pos hpi]
      · have hx' : (0 : ℝ) < dx := by exact_mod_cast hx
        have hnz : -z = ((-(dx : ℝ) : ℝ) : ℂ) := by rw [hzre]; simp
        rw [hnz, Complex.arg_ofReal_of_neg (by linarith), hzre,
          Complex.arg_ofReal_of_nonneg hx'.le]
        simp [abs_of_pos hpi]
    · have him : 0 < z.im := hy
      rw [Complex.arg_neg_eq_arg_sub_pi_of_im_pos him]
      rw [show Complex.arg z - (Complex.arg z - Real.pi) = Real.pi by ring, abs_of_pos hpi]
  rw [key]
  linarith

end FeatureDetection

/-! ## Claims about `LineDetection::mergeLines` -/

namespace FeatureDetection

namespace LineDetection

variable {F : Type}

/-- The rounding of `halfRound`: an even sum is halved exactly, and an odd sum goes to the
even one of the two neighbouring integers, half a unit away. -/
theorem halfRound_spec (s : Int) :
    (s % 2 = 0 → 2 * halfRound s = s) ∧
      (s % 2 ≠ 0 → halfRound s % 2 = 0 ∧ (2 * halfRound s - s = 1 ∨ 2 * halfRound s - s = -1)) := by
  unfold halfRound
  constructor
  · intro h
    simp only [h, if_true]
    omega
  · intro h
    simp only
    split_ifs <;> omega

/-- Segments whose coordinate sums agree have the same rounded midpoint, at distance zero. -/
theorem distFar_of_same_sums (a b : Vec4i) (hx : a.x1 + a.x2 = b.x1 + b.x2)
    (hy : a.y1 + a.y2 = b.y1 + b.y2) : distFar a b = false := by
  simp [distFar, midDistSq, midPoint, hx, hy]

/-- The raw angle of a reversed segment is `atan2(-dy, -dx)`. -/
theorem rawAngle_reverse (N : Numerics F) (s : Vec4i) :
    rawAngle N (reverse s) = N.atan2 (-(s.y2 - s.y1)) (-(s.x2 - s.x1)) := by
  simp [rawAngle, reverse]

/-- Under `ReverseFar`, a segment with distinct end points and its reverse fail the angle
test. -/
theorem angleFar_reverse (N : Numerics F) (hN : N.ReverseFar) (s : Vec4i)
    (hs : ¬ (s.x1 = s.x2 ∧ s.y1 = s.y2)) : angleFar N s (reverse s) = true := by
  have hdir : ¬ (s.y2 - s.y1 = 0 ∧ s.x2 - s.x1 = 0) := by
    intro hh
    exact hs ⟨by omega, by omega⟩
  unfold angleFar angleDiff
  rw [rawAngle_reverse]
  exact hN _ _ hdir

/-- Claim C1. For two segments `a`, `b` whose raw angles `atan2(dy, dx)` are equal and whose
midpoints coincide (the sums start + end agree in both coordinates), `mergeLines` leaves
exactly one segment, from the start point of `a` to the end point of `b`.  The numeric
primitives are arbitrary, provided a zero difference is not above the threshold. -/
theorem mergeLines_equal_angle_same_midpoint (N : Numerics F) (hN : N.ZeroDiffClose)
    (a b : Vec4i) (hangle : rawAngle N a = rawAngle N b)
    (hx : a.x1 + a.x2 = b.x1 + b.x2) (hy : a.y1 + a.y2 = b.y1 + b.y2) :
    mergeLines N [a, b] = [⟨a.x1, a.y1, b.x2, b.y2⟩] := by
  have ha : angleFar N a b = false := by
    unfold angleFar angleDiff
    rw [hangle]
    exact hN _
  have hd : distFar a b = false := distFar_of_same_sums a b hx hy
  rw [mergeLines_pair, if_neg (by simp [ha, hd])]
  rfl

/-- Witness of C1: two parallel diagonal segments with the common midpoint `(20, 20)`. -/
theorem mergeLines_equal_angle_same_midpoint_witness :
    rawAngle microNumerics ⟨10, 10, 30, 30⟩ = rawAngle microNumerics ⟨0, 0, 40, 40⟩ ∧
      mergeLines microNumerics [⟨10, 10, 30, 30⟩, ⟨0, 0, 40, 40⟩] = [⟨10, 10, 40, 40⟩] :=
  ⟨by decide, mergeLines_equal_angle_same_midpoint microNumerics microNumerics_zeroDiffClose
    ⟨10, 10, 30, 30⟩ ⟨0, 0, 40, 40⟩ (by decide) (by decide) (by decide)⟩

/-- Claim C2. When every pair of segments of the list (the earlier one first) has an absolute
raw-angle difference above the threshold of 8 degrees, `mergeLines` returns the list unchanged,
whatever the midpoints are. -/
theorem mergeLines_unchanged_of_angles_far (N : Numerics F) (lines : List Vec4i)
    (h : lines.Pairwise (fun a b => N.gt (angleDiff N a b) N.angleThreshold = true)) :
    mergeLines N lines = lines := by
  unfold mergeLines
  rw [outerLoop_all_far N lines [] h (lines.length - 0) 0 rfl]
  simp

/-- Witness of C2: three segments with the same midpoint `(20, 20)` and the angles 0, 90 and
45 degrees. -/
theorem mergeLines_unchanged_of_angles_far_witness :
    mergeLines microNumerics [⟨0, 20, 40, 20⟩, ⟨20, 0, 20, 40⟩, ⟨0, 0, 40, 40⟩] =
      [⟨0, 20, 40, 20⟩, ⟨20, 0, 20, 40⟩, ⟨0, 0, 40, 40⟩] :=
  mergeLines_unchanged_of_angles_far microNumerics
    [⟨0, 20, 40, 20⟩, ⟨20, 0, 20, 40⟩, ⟨0, 0, 40, 40⟩] (by decide)

/-- Claim C3, evaluated at a failing input. Four parallel horizontal segments of length 20
with midpoints `(10, 0)`, `(11, 0)`, `(12, 0)`, `(13, 0)`: the segment of position 0 supplies
the start point of both merged segments of the result, the second one built after position 0
had been erased. -/
theorem mergeLines_reuses_erased_segment :
    mergeLines microNumerics [⟨0, 0, 20, 0⟩, ⟨1, 0, 21, 0⟩, ⟨2, 0, 22, 0⟩, ⟨3, 0, 23, 0⟩] =
      [mergedLine ⟨0, 0, 20, 0⟩ ⟨1, 0, 21, 0⟩, mergedLine ⟨0, 0, 20, 0⟩ ⟨3, 0, 23, 0⟩] := by
  simp [mergeLines, outerLoop, innerLoop, angleFar, distFar, angleDiff, rawAngle, microNumerics,
    atan2Micro, octantAngle, midDistSq, midPoint, halfRound, mergedLine]

/-- Claim C4, evaluated at a failing input. On the same four segments the sweep leaves an empty
working list and two merged segments: the segment `(2, 0)-(22, 0)` of position 2 has been
erased, although neither merged segment starts or ends at one of its points, and it is not
in the result. -/
theorem outerLoop_drops_unmerged_segment :
    outerLoop microNumerics 0
        [⟨0, 0, 20, 0⟩, ⟨1, 0, 21, 0⟩, ⟨2, 0, 22, 0⟩, ⟨3, 0, 23, 0⟩] [] =
      ([], [⟨0, 0, 21, 0⟩, ⟨0, 0, 23, 0⟩]) ∧
    (⟨2, 0, 22, 0⟩ : Vec4i) ∉
      mergeLines microNumerics [⟨0, 0, 20, 0⟩, ⟨1, 0, 21, 0⟩, ⟨2, 0, 22, 0⟩, ⟨3, 0, 23, 0⟩] := by
  simp [mergeLines, outerLoop, innerLoop, angleFar, distFar, angleDiff, rawAngle, microNumerics,
    atan2Micro, octantAngle, midDistSq, midPoint, halfRound, mergedLine]

/-- Claim C5 as stated fails. The exact midpoints `(11.5, 0)` and `(22, 0)` are `10.5` apart,
more than 10, yet the two segments are merged: the code rounds `(11.5, 0)` to `(12, 0)` and
measures the distance 10. -/
theorem mergeLines_exact_midpoint_counterexample :
    100 < exactMidDistSq ⟨3, 0, 20, 0⟩ ⟨12, 0, 32, 0⟩ ∧
      mergeLines microNumerics [⟨3, 0, 20, 0⟩, ⟨12, 0, 32, 0⟩] = [⟨3, 0, 32, 0⟩] := by
  constructor
  · norm_num [exactMidDistSq]
  · simp [mergeLines_pair, angleFar, distFar, angleDiff, rawAngle, microNumerics,
      atan2Micro, octantAngle, midDistSq, midPoint, halfRound, mergedLine]

/-- Claim C5, amended. For two segments whose midpoints as the code computes them (each
coordinate of `(start + end) * 0.5` rounded to the nearest integer, ties to even) are more
than 10 apart, `mergeLines` leaves the list unchanged, whatever the angles. -/
theorem mergeLines_unchanged_of_midpoints_far (N : Numerics F) (a b : Vec4i)
    (h : 100 < midDistSq a b) : mergeLines N [a, b] = [a, b] := by
  have hd : distFar a b = true := by simp [distFar, h]
  rw [mergeLines_pair, if_pos (Or.inr hd)]

/-- Witness of the amended C5: parallel segments with rounded midpoints `(12, 0)` and
`(23, 0)`. -/
theorem mergeLines_unchanged_of_midpoints_far_witness :
    100 < midDistSq ⟨3, 0, 20, 0⟩ ⟨12, 0, 34, 0⟩ ∧
      mergeLines microNumerics [⟨3, 0, 20, 0⟩, ⟨12, 0, 34, 0⟩] =
        [⟨3, 0, 20, 0⟩, ⟨12, 0, 34, 0⟩] :=
  ⟨by decide, mergeLines_unchanged_of_midpoints_far microNumerics _ _ (by decide)⟩

/-- Claim C6. For a segment `s` with distinct end points, `mergeLines` returns the list
`[s, reverse s]` unchanged: the raw angles are `atan2(dy, dx)` and `atan2(-dy, -dx)`, which
no normalisation brings together, so the pair fails the angle test although the midpoints
are the same.  The numeric primitives are arbitrary, provided opposite directions are more
than the threshold apart. -/
theorem mergeLines_reversed_pair_unchanged (N : Numerics F) (hN : N.ReverseFar) (s : Vec4i)
    (hs : ¬ (s.x1 = s.x2 ∧ s.y1 = s.y2)) :
    mergeLines N [s, reverse s] = [s, reverse s] := by
  rw [mergeLines_pair, if_pos (Or.inl (angleFar_reverse N hN s hs))]

/-- Witness of C6: the horizontal segment from `(0, 0)` to `(20, 0)` and its reverse, with
the fixed-point primitives. -/
theorem mergeLines_reversed_pair_unchanged_witness :
    midPoint ⟨0, 0, 20, 0⟩ = midPoint (reverse ⟨0, 0, 20, 0⟩) ∧
      mergeLines microNumerics [⟨0, 0, 20, 0⟩, reverse ⟨0, 0, 20, 0⟩] =
        [⟨0, 0, 20, 0⟩, reverse ⟨0, 0, 20, 0⟩] :=
  ⟨by decide, mergeLines_reversed_pair_unchanged microNumerics microNumerics_reverseFar
    ⟨0, 0, 20, 0⟩ (by decide)⟩

/-- The conclusion of C6 in exact real arithmetic: with `atan2` the argument in `(-π, π]`
and the threshold `π / 180 * 8`, the pair of a segment and its reverse is never merged. -/
theorem mergeLines_reversed_pair_unchanged_real (s : Vec4i)
    (hs : ¬ (s.x1 = s.x2 ∧ s.y1 = s.y2)) :
    mergeLines realNumerics [s, reverse s] = [s, reverse s] := by
  rw [mergeLines_pair, if_pos (Or.inl (angleFar_reverse _ realNumerics_reverseFar s hs))]

end LineDetection

end FeatureDetection

/-! ## Feature export: the written text and the round trip -/

namespace FeatureDetection

namespace Detection

/-- A digit character reads back as its digit. -/
theorem digitVal_digitChar (d : Nat) (hd : d < 10) : digitVal (digitChar d) = some d := by
  interval_cases d <;> rfl

/-- A digit character is none of the separators. -/
theorem digitChar_ne (d : Nat) (hd : d < 10) :
    digitChar d ≠ '-' ∧ digitChar d ≠ ',' ∧ digitChar d ≠ '\n' := by
  interval_cases d <;> decide

/-- Reading one more digit at the end of a digit string. -/
theorem parseNatAux_snoc (d : Nat) (hd : d < 10) (cs : List Char) :
    ∀ acc : Nat, parseNatAux acc (cs ++ [digitChar d]) =
      (parseNatAux acc cs).map (fun m => 10 * m + d) := by
  induction cs with
  | nil =>
    intro acc
    simp [parseNatAux, digitVal_digitChar d hd]
  | cons c cs ih =>
    intro acc
    simp only [List.cons_append, parseNatAux]
    cases digitVal c with
    | none => rfl
    | some v => exact ih _

/-- The decimal text of a natural number is not empty. -/
theorem decimalNat_ne_nil (n : Nat) : decimalNat n ≠ [] := by
  rw [decimalNat]
  split_ifs <;> simp

/-- The decimal text of a natural number reads back as the number. -/
theorem parseNatAux_decimalNat (n : Nat) : parseNatAux 0 (decimalNat n) = some n := by
  induction n using Nat.strong_induction_on with
  | _ n ih =>
    rw [decimalNat]
    split_ifs with h
    · simp [parseNatAux, digitVal_digitChar n h]
    · rw [parseNatAux_snoc _ (Nat.mod_lt _ (by norm_num)), ih (n / 10) (by omega)]
      simp only [Option.map_some', Option.some.injEq]
      omega

/-- The characters of the decimal text of a natural number are digits. -/
theorem decimalNat_chars (n : Nat) :
    ∀ c ∈ decimalNat n, c ≠ '-' ∧ c ≠ ',' ∧ c ≠ '\n' := by
  induction n using Nat.strong_induction_on with
  | _ n ih =>
    rw [decimalNat]
    split_ifs with h
    · intro c hc
      rw [List.mem_singleton] at hc
      subst hc
      exact digitChar_ne n h
    · intro c hc
      rw [List.mem_append, List.mem_singleton] at hc
      rcases hc with hc | hc
      · exact ih (n / 10) (by omega) c hc
      · subst hc
        exact digitChar_ne _ (Nat.mod_lt _ (by norm_num))

/-- The decimal text of an integer holds neither a comma nor a newline. -/
theorem decimal_chars (v : Int) : ∀ c ∈ decimal v, c ≠ ',' ∧ c ≠ '\n' := by
  intro c hc
  unfold decimal at hc
  split_ifs at hc
  · rw [List.mem_cons] at hc
    rcases hc with hc | hc
    · subst hc
      decide
    · exact (decimalNat_chars _ c hc).2
  · exact (decimalNat_chars _ c hc).2

/-- The decimal text of an integer reads back as the integer. -/
theorem parseInt_decimal (v : Int) : parseInt (decimal v) = some v := by
  unfold decimal
  split_ifs with h
  · simp only [parseInt, if_true, parseNat, if_neg (decimalNat_ne_nil _),
      parseNatAux_decimalNat, Option.map_some', Option.some.injEq]
    rw [Int.ofNat_natAbs_of_nonpos h.le, neg_neg]
  · have hne := decimalNat_ne_nil v.natAbs
    have hch := decimalNat_chars v.natAbs
    have hp := parseNatAux_decimalNat v.natAbs
    cases hl : decimalNat v.natAbs with
    | nil => exact absurd hl hne
    | cons c cs =>
      rw [hl] at hch hp
      have hc : c ≠ '-' := (hch c (List.mem_cons_self _ _)).1
      simp only [parseInt, if_neg hc, parseNat, if_neg (List.cons_ne_nil c cs), hp,
        Option.map_some', Option.some.injEq]
      exact Int.natAbs_of_nonneg (not_lt.mp h)

end Detection

end FeatureDetection

namespace FeatureDetection

namespace Detection

/-- Taking characters up to the first comma of `xs ++ ',' :: ys`, when `xs` has no comma. -/
theorem takeWhile_comma (xs ys : List Char) (h : ∀ c ∈ xs, c ≠ ',') :
    (xs ++ ',' :: ys).takeWhile (fun c => c != ',') = xs := by
  induction xs with
  | nil => simp
  | cons x xs ih =>
    have hx : x ≠ ',' := h x (List.mem_cons_self _ _)
    simp only [List.cons_append, List.takeWhile_cons, bne_iff_ne, ne_eq, hx, not_false_eq_true,
      if_true]
    rw [ih (fun c hc => h c (List.mem_cons_of_mem _ hc))]

/-- Dropping characters up to the first comma of `xs ++ ',' :: ys`, when `xs` has no comma. -/
theorem dropWhile_comma (xs ys : List Char) (h : ∀ c ∈ xs, c ≠ ',') :
    (xs ++ ',' :: ys).dropWhile (fun c => c != ',') = ',' :: ys := by
  induction xs with
  | nil => simp
  | cons x xs ih =>
    have hx : x ≠ ',' := h x (List.mem_cons_self _ _)
    simp only [List.cons_append, List.dropWhile_cons, bne_iff_ne, ne_eq, hx, not_false_eq_true,
      if_true]
    exact ih (fun c hc => h c (List.mem_cons_of_mem _ hc))

/-- The text `x,y` reads back as the pair. -/
theorem parseLine_decimal (x y : Int) :
    parseLine (decimal x ++ [','] ++ decimal y) = some (x, y) := by
  have hx : ∀ c ∈ decimal x, c ≠ ',' := fun c hc => (decimal_chars x c hc).1
  unfold parseLine
  rw [List.append_assoc, List.singleton_append, takeWhile_comma _ _ hx,
    dropWhile_comma _ _ hx]
  simp [parseInt_decimal]

/-- Reading a line `body` that holds no newline, up to its newline. -/
theorem parseFeaturesAux_line (body rest : List Char) (h : ∀ c ∈ body, c ≠ '\n') :
    ∀ cur : List Char, parseFeaturesAux cur (body ++ '\n' :: rest) =
      match parseLine (cur ++ body), parseFeaturesAux [] rest with
      | some feature, some features => some (feature :: features)
      | _, _ => none := by
  induction body with
  | nil =>
    intro cur
    simp [parseFeaturesAux]
  | cons b body ih =>
    intro cur
    have hb : b ≠ '\n' := h b (List.mem_cons_self _ _)
    have hstep : parseFeaturesAux cur (b :: body ++ '\n' :: rest) =
        parseFeaturesAux (cur ++ [b]) (body ++ '\n' :: rest) := by
      rw [List.cons_append, parseFeaturesAux, if_neg hb]
    rw [hstep, ih (fun c hc => h c (List.mem_cons_of_mem _ hc)) (cur ++ [b])]
    simp

/-- The concatenation of the lines of a feature list reads back as the list. -/
theorem parseFeatures_lines (features : List (Int × Int)) :
    parseFeatures (features.map featureLine).flatten = some features := by
  unfold parseFeatures
  induction features with
  | nil => simp [parseFeaturesAux]
  | cons f fs ih =>
    have hbody : ∀ c ∈ decimal f.1 ++ [','] ++ decimal f.2, c ≠ '\n' := by
      intro c hc
      simp only [List.mem_append, List.mem_singleton] at hc
      rcases hc with (hc | hc) | hc
      · exact (decimal_chars _ c hc).2
      · subst hc
        decide
      · exact (decimal_chars _ c hc).2
    have hsplit : (List.map featureLine (f :: fs)).flatten =
        (decimal f.1 ++ [','] ++ decimal f.2) ++ '\n' :: (fs.map featureLine).flatten := by
      simp [featureLine]
    rw [hsplit, parseFeaturesAux_line _ _ hbody, List.nil_append, parseLine_decimal, ih]

/-- One insertion on a stream that has not failed, when the device has room for what is
pending, for the text and for `t` more characters: the stream does not fail, it holds the
text after what it held, and the device keeps room for what is pending and `t` more. -/
theorem put_of_room (o : OfStream) (text : List Char) (t : Nat) (hf : o.failed = false)
    (hroom : o.pending.length + text.length + t ≤ o.room) :
    (o.put text).failed = false ∧
      (o.put text).file ++ (o.put text).pending = o.file ++ o.pending ++ text ∧
      (o.put text).pending.length + t ≤ (o.put text).room := by
  unfold OfStream.put
  rw [hf]
  simp only [Bool.false_eq_true, if_false]
  split_ifs with h
  · unfold OfStream.flush
    simp only [List.length_append]
    rw [if_pos (by omega)]
    refine ⟨rfl, by simp, ?_⟩
    simp only [List.length_nil]
    omega
  · refine ⟨rfl, by simp, ?_⟩
    simp only [List.length_append]
    omega

/-- The loop of `writeFeaturesToFile` on a device with room for the whole text: no exception,
and the stream holds the lines of the features after what it held. -/
theorem writeLoop_of_room (filename : String) (features : List (Int × Int)) :
    ∀ o : OfStream, o.failed = false →
      o.pending.length + ((features.map featureLine).flatten).length ≤ o.room →
      (writeLoop filename features o).1 = none ∧
        (writeLoop filename features o).2.file ++ (writeLoop filename features o).2.pending =
          o.file ++ o.pending ++ (features.map featureLine).flatten ∧
        (writeLoop filename features o).2.pending.length ≤
          (writeLoop filename features o).2.room := by
  induction features with
  | nil =>
    intro o _ hroom
    simp only [writeLoop, List.map_nil, List.flatten_nil, List.append_nil, List.length_nil,
      Nat.add_zero] at hroom ⊢
    exact ⟨trivial, trivial, hroom⟩
  | cons f fs ih =>
    intro o hf hroom
    have hlen : ((List.map featureLine (f :: fs)).flatten).length =
        (decimal f.1).length + 1 + (decimal f.2).length + 1 +
          ((fs.map featureLine).flatten).length := by
      simp [featureLine]
      omega
    rw [hlen] at hroom
    obtain ⟨h1f, h1c, h1r⟩ := put_of_room o (decimal f.1)
      (1 + (decimal f.2).length + 1 + ((fs.map featureLine).flatten).length) hf (by omega)
    obtain ⟨h2f, h2c, h2r⟩ := put_of_room (o.put (decimal f.1)) [',']
      ((decimal f.2).length + 1 + ((fs.map featureLine).flatten).length) h1f
      (by simp only [List.length_singleton]; omega)
    obtain ⟨h3f, h3c, h3r⟩ := put_of_room ((o.put (decimal f.1)).put [',']) (decimal f.2)
      (1 + ((fs.map featureLine).flatten).length) h2f (by omega)
    obtain ⟨h4f, h4c, h4r⟩ := put_of_room
      (((o.put (decimal f.1)).put [',']).put (decimal f.2)) ['\n']
      (((fs.map featureLine).flatten).length) h3f
      (by simp only [List.length_singleton]; omega)
    rw [writeLoop]
    simp only [h4f, Bool.false_eq_true, if_false]
    obtain ⟨hn, hc, hr⟩ := ih _ h4f h4r
    refine ⟨hn, ?_, hr⟩
    rw [hc, h4c, h3c, h2c, h1c]
    simp [featureLine]

/-- On a device with room for the whole text, `writeFeaturesToFile` returns normally and the
file holds the lines of the features in list order, which read back as the feature list. -/
theorem writeFeaturesToFile_of_room (bufferSize room : Nat) (filename : String)
    (features : List (Int × Int))
    (hroom : ((features.map featureLine).flatten).length ≤ room) :
    writeFeaturesToFile true bufferSize room filename features =
        (none, (features.map featureLine).flatten) ∧
      parseFeatures (features.map featureLine).flatten = some features := by
  refine ⟨?_, parseFeatures_lines features⟩
  obtain ⟨hn, hc, hr⟩ := writeLoop_of_room filename features ⟨[], [], false, room, bufferSize⟩
    rfl (by simpa using hroom)
  unfold writeFeaturesToFile
  simp only [Bool.not_true, Bool.false_eq_true, if_false]
  rw [Prod.mk.injEq]
  refine ⟨hn, ?_⟩
  unfold OfStream.close OfStream.flush
  rw [if_pos hr]
  simpa using hc

/-- On a stream that has not failed, an insertion that fits the buffer stays in it: nothing
reaches the device and `fail()` stays false. -/
theorem put_of_fits (o : OfStream) (text : List Char) (hf : o.failed = false)
    (hfit : o.pending.length + text.length ≤ o.bufferSize) :
    o.put text = { o with pending := o.pending ++ text } := by
  unfold OfStream.put
  rw [hf]
  simp only [Bool.false_eq_true, if_false]
  rw [if_neg (by omega)]

/-- The loop of `writeFeaturesToFile` when what is pending and the whole text fit the
buffer: no exception, whatever the device, and the text is still in the buffer. -/
theorem writeLoop_of_fits (filename : String) (features : List (Int × Int)) :
    ∀ o : OfStream, o.failed = false →
      o.pending.length + ((features.map featureLine).flatten).length ≤ o.bufferSize →
      writeLoop filename features o =
        (none, { o with pending := o.pending ++ (features.map featureLine).flatten }) := by
  induction features with
  | nil =>
    intro o _ _
    simp [writeLoop]
  | cons f fs ih =>
    intro o hf hfit
    have hlen : ((List.map featureLine (f :: fs)).flatten).length =
        (decimal f.1).length + 1 + (decimal f.2).length + 1 +
          ((fs.map featureLine).flatten).length := by
      simp [featureLine]
      omega
    rw [hlen] at hfit
    have e1 : o.put (decimal f.1) =
        ⟨o.file, o.pending ++ decimal f.1, o.failed, o.room, o.bufferSize⟩ :=
      put_of_fits o (decimal f.1) hf (by omega)
    have e2 : (⟨o.file, o.pending ++ decimal f.1, o.failed, o.room, o.bufferSize⟩ :
        OfStream).put [','] =
        ⟨o.file, o.pending ++ decimal f.1 ++ [','], o.failed, o.room, o.bufferSize⟩ :=
      put_of_fits _ _ hf (by simp only [List.length_append, List.length_singleton]; omega)
    have e3 : (⟨o.file, o.pending ++ decimal f.1 ++ [','], o.failed, o.room, o.bufferSize⟩ :
        OfStream).put (decimal f.2) =
        ⟨o.file, o.pending ++ decimal f.1 ++ [','] ++ decimal f.2, o.failed, o.room,
          o.bufferSize⟩ :=
      put_of_fits _ _ hf (by simp only [List.length_append, List.length_singleton]; omega)
    have e4 : (⟨o.file, o.pending ++ decimal f.1 ++ [','] ++ decimal f.2, o.failed, o.room,
        o.bufferSize⟩ : OfStream).put ['\n'] =
        ⟨o.file, o.pending ++ decimal f.1 ++ [','] ++ decimal f.2 ++ ['\n'], o.failed, o.room,
          o.bufferSize⟩ :=
      put_of_fits _ _ hf (by simp only [List.length_append, List.length_singleton]; omega)
    have e5 : writeLoop filename fs
        ⟨o.file, o.pending ++ decimal f.1 ++ [','] ++ decimal f.2 ++ ['\n'], o.failed, o.room,
          o.bufferSize⟩ =
        (none, ⟨o.file, o.pending ++ decimal f.1 ++ [','] ++ decimal f.2 ++ ['\n'] ++
          (fs.map featureLine).flatten, o.failed, o.room, o.bufferSize⟩) :=
      ih _ hf (by simp only [List.length_append, List.length_singleton]; omega)
    rw [writeLoop, e1, e2, e3, e4]
    simp only [hf, Bool.false_eq_true, if_false] at e5 ⊢
    rw [e5]
    simp [featureLine]

/-- When the whole text fits the buffer of the stream, `writeFeaturesToFile` returns normally
whatever the device: the only transfer to the device is the one of the destructor, and the file
holds the part of the text the device had room for. -/
theorem writeFeaturesToFile_of_fits (bufferSize room : Nat) (filename : String)
    (features : List (Int × Int))
    (hfit : ((features.map featureLine).flatten).length ≤ bufferSize) :
    writeFeaturesToFile true bufferSize room filename features =
      (none, ((features.map featureLine).flatten).take room) := by
  unfold writeFeaturesToFile
  simp only [Bool.not_true, Bool.false_eq_true, if_false]
  rw [writeLoop_of_fits filename features ⟨[], [], false, room, bufferSize⟩ rfl
    (by simpa using hfit)]
  unfold OfStream.close OfStream.flush
  simp only [List.nil_append]
  split_ifs with h
  · rw [List.take_of_length_le h]
  · rfl

/-- The export of `(3, -4), (0, 120)` to a device with room for the eleven characters of the
text: the method returns normally, the file holds `3,-4\n0,120\n`, and the text reads back
as the feature list. -/
theorem writeFeaturesToFile_example :
    writeFeaturesToFile true 8192 11 "lines_features.txt" [(3, -4), (0, 120)] =
        (none, "3,-4\n0,120\n".toList) ∧
      parseFeatures "3,-4\n0,120\n".toList = some [(3, -4), (0, 120)] := by
  have h := writeFeaturesToFile_of_room 8192 11 "lines_features.txt" [(3, -4), (0, 120)]
    (by simp [featureLine, decimal, decimalNat, digitChar])
  have ht : (List.map featureLine [(3, -4), (0, 120)]).flatten = "3,-4\n0,120\n".toList := by
    simp [featureLine, decimal, decimalNat, digitChar]
  rw [ht] at h
  exact h

/-- Claim C7, evaluated at a failing input. The features `(3, -4), (0, 120)` are exported
through a stream with a buffer of 8192 characters to a file that opens on a device with no
room left: the eleven characters `3,-4\n0,120\n` stay in the buffer, `fail()` is false after
each feature, the method returns normally, and the file is empty, which reads back as no
feature.  With room for five characters the file holds `3,-4\n` only, which reads back as the
first feature alone. -/
theorem writeFeaturesToFile_silent_loss :
    (writeFeaturesToFile true 8192 0 "lines_features.txt" [(3, -4), (0, 120)] = (none, []) ∧
        parseFeatures [] = some []) ∧
      (writeFeaturesToFile true 8192 5 "lines_features.txt" [(3, -4), (0, 120)] =
          (none, "3,-4\n".toList) ∧
        parseFeatures "3,-4\n".toList = some [(3, -4)]) := by
  refine ⟨⟨?_, rfl⟩, ⟨?_, ?_⟩⟩
  · simp [writeFeaturesToFile, writeLoop, OfStream.put, OfStream.flush, OfStream.close,
      decimal, decimalNat, digitChar]
  · simp [writeFeaturesToFile, writeLoop, OfStream.put, OfStream.flush, OfStream.close,
      decimal, decimalNat, digitChar]
  · decide

end Detection

end FeatureDetection

/-! ## Feature coordinates of the line detector -/

namespace FeatureDetection

namespace LineDetection

/-- The loop of `getanalyzeFeatures` appends, to what it has collected, the start and the end
point of each segment in order. -/
theorem getanalyzeFeatures_foldl (lines : List Vec4i) :
    ∀ acc : List (Int × Int),
      lines.foldl (fun coordinates line =>
          (coordinates ++ [(line.x1, line.y1)]) ++ [(line.x2, line.y2)]) acc =
        acc ++ (lines.map (fun line => [(line.x1, line.y1), (line.x2, line.y2)])).flatten := by
  induction lines with
  | nil => intro acc; simp
  | cons l ls ih =>
    intro acc
    rw [List.foldl_cons, ih, List.map_cons, List.flatten_cons]
    simp

/-- The coordinate list of a non-empty segment list. -/
theorem getanalyzeFeatures_cons (l : Vec4i) (ls : List Vec4i) :
    getanalyzeFeatures (l :: ls) = (l.x1, l.y1) :: (l.x2, l.y2) :: getanalyzeFeatures ls := by
  unfold getanalyzeFeatures
  rw [getanalyzeFeatures_foldl, getanalyzeFeatures_foldl]
  simp

/-- Claim C8. For a stored segment list of length `n`, `getanalyzeFeatures` returns `2 n`
pairs; for every `k < n` the element `2 k` is the start point and the element `2 k + 1` the end
point of segment `k`; and pairing consecutive points gives the segment list back. -/
theorem getanalyzeFeatures_layout (lines : List Vec4i) :
    (getanalyzeFeatures lines).length = 2 * lines.length ∧
      (∀ (k : Nat) (hk : k < lines.length),
        (getanalyzeFeatures lines)[2 * k]? = some (lines[k].x1, lines[k].y1) ∧
          (getanalyzeFeatures lines)[2 * k + 1]? = some (lines[k].x2, lines[k].y2)) ∧
      pairSegments (getanalyzeFeatures lines) = lines := by
  induction lines with
  | nil => simp [getanalyzeFeatures, pairSegments]
  | cons l ls ih =>
    obtain ⟨hlen, hget, hpair⟩ := ih
    rw [getanalyzeFeatures_cons]
    refine ⟨by simp [hlen]; ring, ?_, by simp [pairSegments, hpair]⟩
    intro k hk
    cases k with
    | zero => simp
    | succ k =>
      have hk' : k < ls.length := by simpa using hk
      have h2 : 2 * (k + 1) = 2 * k + 1 + 1 := by ring
      have h3 : 2 * (k + 1) + 1 = 2 * k + 1 + 1 + 1 := by ring
      rw [h3, h2]
      simpa using hget k hk'

end LineDetection

/-! ## Preprocessing: shape of the working buffer, and the pristine copy -/

/-- The shape-only primitives satisfy the shape contracts. -/
theorem shapeOnlyPrimitives_shapeContract : shapeOnlyPrimitives.ShapeContract where
  blur_shape := fun _ => ⟨rfl, rfl, rfl⟩
  bilateral_shape := fun _ => ⟨rfl, rfl, rfl⟩
  resize_shape := fun _ _ _ => ⟨rfl, rfl, rfl⟩
  gray_shape := fun _ _ => ⟨rfl, rfl, rfl⟩

namespace Detection

open CommonProcesses

/-- Claim C9. For a working buffer with 3 or 4 channels and any width and height, under the
shape contracts of the primitives, `commonOperations` leaves a single-channel working buffer
of width 800 and height 600; and it is the composition, in this order, of `filterNoise`,
`rescale(800, 600)`, `convertToGrays` and `denoiseBilateralFilter`. -/
theorem commonOperations_shape (P : Primitives) (hP : P.ShapeContract) (s : CommonProcesses)
    (hc : s.RGBPic.channels = 3 ∨ s.RGBPic.channels = 4) :
    (commonOperations P s).RGBPic.channels = 1 ∧
      (commonOperations P s).RGBPic.cols = 800 ∧
      (commonOperations P s).RGBPic.rows = 600 ∧
      commonOperations P s =
        denoiseBilateralFilter P (convertToGrays P (rescale P 800 600 (filterNoise P s))) := by
  have hblur := hP.blur_shape s.RGBPic
  have hres := hP.resize_shape (P.GaussianBlur s.RGBPic) 800 600
  have hch : (P.resize (P.GaussianBlur s.RGBPic) 800 600).channels = 3 ∨
      (P.resize (P.GaussianBlur s.RGBPic) 800 600).channels = 4 := by
    rw [hres.2.2, hblur.2.2]
    exact hc
  have hgray := hP.gray_shape _ hch
  have hbil := hP.bilateral_shape (P.cvtColorBGR2GRAY (P.resize (P.GaussianBlur s.RGBPic) 800 600))
  refine ⟨?_, ?_, ?_, rfl⟩
  · exact hbil.2.2.trans hgray.2.2
  · exact hbil.1.trans (hgray.1.trans hres.1)
  · exact hbil.2.1.trans (hgray.2.1.trans hres.2.1)

/-- Witness of C9: a 3-channel image of size 1920 x 1080 under the shape-only primitives. -/
theorem commonOperations_shape_witness :
    (commonOperations shapeOnlyPrimitives
        ⟨⟨1920, 1080, 3, [7]⟩, ⟨1920, 1080, 3, [7]⟩⟩).RGBPic = ⟨800, 600, 1, [7]⟩ ∧
      (commonOperations shapeOnlyPrimitives
        ⟨⟨1920, 1080, 3, [7]⟩, ⟨1920, 1080, 3, [7]⟩⟩).RGBPic.channels = 1 :=
  ⟨by decide, (commonOperations_shape shapeOnlyPrimitives shapeOnlyPrimitives_shapeContract
    ⟨⟨1920, 1080, 3, [7]⟩, ⟨1920, 1080, 3, [7]⟩⟩ (Or.inl rfl)).1⟩

end Detection

/-- Claim C10. `setRGBPic` stores the image in `orginalPic`, and no preprocessing or analysis
operation changes it afterwards: `filterNoise`, `rescale`, `convertToGrays`,
`denoiseBilateralFilter`, `commonOperations`, `LineDetection::analyzeFeatures` and
`CornerDetection::analyzeFeatures` each return a state with the same `getOrginalPic`. -/
theorem orginalPic_unchanged {F : Type} (P : Primitives) (N : Numerics F) :
    (∀ (s : CommonProcesses) (data : Mat), (s.setRGBPic data).getOrginalPic = data) ∧
      (∀ s : CommonProcesses, (s.filterNoise P).getOrginalPic = s.getOrginalPic) ∧
      (∀ (s : CommonProcesses) (w h : Nat),
        (s.rescale P w h).getOrginalPic = s.getOrginalPic) ∧
      (∀ s : CommonProcesses, (s.convertToGrays P).getOrginalPic = s.getOrginalPic) ∧
      (∀ s : CommonProcesses, (s.denoiseBilateralFilter P).getOrginalPic = s.getOrginalPic) ∧
      (∀ s : CommonProcesses,
        (Detection.commonOperations P s).getOrginalPic = s.getOrginalPic) ∧
      (∀ s : LineDetection,
        (LineDetection.analyzeFeatures P N s).getOrginalPic = s.getOrginalPic) ∧
      (∀ s : CornerDetection,
        (CornerDetection.analyzeFeatures P s).getOrginalPic = s.getOrginalPic) :=
  ⟨fun _ _ => rfl, fun _ => rfl, fun _ _ _ => rfl, fun _ => rfl, fun _ => rfl, fun _ => rfl,
    fun _ => rfl, fun _ => rfl⟩

end FeatureDetection

/-! ## Invariants of the sweep of `mergeLines` -/

namespace FeatureDetection

namespace LineDetection

variable {F : Type}

/-- The merge test fails exactly when one of the two `continue` statements is taken. -/
theorem mergeTest_eq_false_iff (N : Numerics F) (a b : Vec4i) :
    mergeTest N a b = false ↔ (angleFar N a b = true ∨ distFar a b = true) := by
  unfold mergeTest
  cases angleFar N a b <;> cases distFar a b <;> simp

/-- The merge test passes exactly when neither `continue` statement is taken. -/
theorem mergeTest_eq_true_iff (N : Numerics F) (a b : Vec4i) :
    mergeTest N a b = true ↔ (angleFar N a b = false ∧ distFar a b = false) := by
  unfold mergeTest
  cases angleFar N a b <;> cases distFar a b <;> simp

/-- Erasing index `j` and then index `i < j` removes two elements. -/
theorem length_eraseIdx_eraseIdx (ls : List Vec4i) (i j : Nat) (hij : i < j)
    (hj : j < ls.length) : ((ls.eraseIdx j).eraseIdx i).length + 2 = ls.length := by
  have h1 : (ls.eraseIdx j).length = ls.length - 1 := by
    rw [List.length_eraseIdx, if_pos hj]
  have h2 : ((ls.eraseIdx j).eraseIdx i).length = (ls.eraseIdx j).length - 1 := by
    rw [List.length_eraseIdx, if_pos (by omega)]
  omega

/-- The inner loop never lengthens the working list. -/
theorem innerLoop_length_le (N : Numerics F) (line1 : Vec4i) (i : Nat) :
    ∀ (j : Nat) (lines ms : List Vec4i),
      (innerLoop N line1 i j lines ms).1.length ≤ lines.length := by
  intro j lines ms
  induction j, lines, ms using innerLoop.induct N line1 i with
  | case1 j ls ms h line2 hfar ih =>
    rw [innerLoop_skip N line1 i j ls ms h (Or.inl hfar)]
    exact ih
  | case2 j ls ms h line2 hfar hd ih =>
    rw [innerLoop_skip N line1 i j ls ms h (Or.inr hd)]
    exact ih
  | case3 j ls ms h line2 hfar hd ih =>
    rw [innerLoop_merge N line1 i j ls ms h (by simpa using hfar) (by simpa using hd)]
    exact le_trans ih
      (le_trans (List.length_eraseIdx_le _ _) (List.length_eraseIdx_le _ _))
  | case4 j ls ms h =>
    rw [innerLoop_done N line1 i j ls ms h]

/-- Each merge of the inner loop removes two segments from the working list and adds one
to the merged segments. -/
theorem innerLoop_count (N : Numerics F) (line1 : Vec4i) (i : Nat) :
    ∀ (j : Nat) (lines ms : List Vec4i), i < j →
      (innerLoop N line1 i j lines ms).1.length + 2 * (innerLoop N line1 i j lines ms).2.length =
        lines.length + 2 * ms.length := by
  intro j lines ms
  induction j, lines, ms using innerLoop.induct N line1 i with
  | case1 j ls ms h line2 hfar ih =>
    intro hij
    rw [innerLoop_skip N line1 i j ls ms h (Or.inl hfar)]
    exact ih (by omega)
  | case2 j ls ms h line2 hfar hd ih =>
    intro hij
    rw [innerLoop_skip N line1 i j ls ms h (Or.inr hd)]
    exact ih (by omega)
  | case3 j ls ms h line2 hfar hd ih =>
    intro hij
    rw [innerLoop_merge N line1 i j ls ms h (by simpa using hfar) (by simpa using hd)]
    have hj1 : j - 1 + 1 = j := by omega
    rw [hj1] at ih ⊢
    have h1 := ih hij
    have h2 := length_eraseIdx_eraseIdx ls i j hij h
    rw [h1, List.length_append, List.length_singleton]
    omega
  | case4 j ls ms h =>
    intro _
    rw [innerLoop_done N line1 i j ls ms h]

/-- The count of `innerLoop_count` for the whole sweep. -/
theorem outerLoop_count (N : Numerics F) :
    ∀ (n i : Nat) (lines ms : List Vec4i), lines.length - i = n →
      (outerLoop N i lines ms).1.length + 2 * (outerLoop N i lines ms).2.length =
        lines.length + 2 * ms.length := by
  intro n
  induction n using Nat.strong_induction_on with
  | _ n ih =>
    intro i lines ms hn
    by_cases hi : i < lines.length
    · rw [outerLoop_step N i lines ms hi]
      have hc := innerLoop_count N lines[i] i (i + 1) lines ms (by omega)
      have hlen := innerLoop_length_le N lines[i] i (i + 1) lines ms
      rw [ih _ (by omega) (i + 1) _ _ rfl]
      exact hc
    · rw [outerLoop_done N i lines ms hi]

end LineDetection

end FeatureDetection

/-! ## Length of the result, and the index assertions -/

namespace FeatureDetection

namespace LineDetection

variable {F : Type}

/-- Claim C15. With `k` the number of merges performed (the number of merged segments
created by the sweep), the result of `mergeLines` on a list of length `n` has exactly `n - k`
segments and `2 k ≤ n`; hence its length lies between `ceil(n / 2)` and `n`, and it is empty
exactly when the input is empty. -/
theorem mergeLines_length (N : Numerics F) (lines : List Vec4i) :
    (mergeLines N lines).length = lines.length - (outerLoop N 0 lines []).2.length ∧
      2 * (outerLoop N 0 lines []).2.length ≤ lines.length ∧
      (lines.length + 1) / 2 ≤ (mergeLines N lines).length ∧
      (mergeLines N lines).length ≤ lines.length ∧
      (mergeLines N lines = [] ↔ lines = []) := by
  have hc := outerLoop_count N (lines.length - 0) 0 lines [] rfl
  have hlen : (mergeLines N lines).length =
      (outerLoop N 0 lines []).1.length + (outerLoop N 0 lines []).2.length := by
    unfold mergeLines
    simp
  simp only [List.length_nil, Nat.mul_zero, Nat.add_zero] at hc
  refine ⟨by omega, by omega, by omega, by omega, ?_⟩
  rw [← List.length_eq_zero, ← List.length_eq_zero (l := lines)]
  omega

/-- From an index `j > i` the inner loop with assertions violates none of them, and computes
what the inner loop computes. -/
theorem innerLoopChecked_eq (N : Numerics F) (line1 : Vec4i) (i : Nat) :
    ∀ (j : Nat) (lines ms : List Vec4i), i < j →
      innerLoopChecked N line1 i j lines ms = some (innerLoop N line1 i j lines ms) := by
  intro j lines ms
  induction j, lines, ms using innerLoop.induct N line1 i with
  | case1 j ls ms h line2 hfar ih =>
    intro hij
    rw [innerLoop_skip N line1 i j ls ms h (Or.inl hfar), innerLoopChecked]
    simp only [h, hij, line2, hfar, dite_true, if_true]
    exact ih (by omega)
  | case2 j ls ms h line2 hfar hd ih =>
    intro hij
    rw [innerLoop_skip N line1 i j ls ms h (Or.inr hd), innerLoopChecked]
    simp only [h, hij, line2, hfar, hd, dite_true, if_true]
    exact ih (by omega)
  | case3 j ls ms h line2 hfar hd ih =>
    intro hij
    have hi : i < (ls.eraseIdx j).length := by
      rw [List.length_eraseIdx, if_pos h]
      omega
    have hpos : 0 < j := by omega
    rw [innerLoop_merge N line1 i j ls ms h (by simpa using hfar) (by simpa using hd),
      innerLoopChecked]
    simp only [h, hij, line2, hfar, hd, hi, hpos, and_self, dite_true, if_true]
    have hj1 : j - 1 + 1 = j := by omega
    rw [hj1] at ih ⊢
    exact ih hij
  | case4 j ls ms h =>
    intro _
    rw [innerLoop_done N line1 i j ls ms h, innerLoopChecked, dif_neg h]

/-- The sweep with assertions violates none of them, and computes what the sweep computes. -/
theorem outerLoopChecked_eq (N : Numerics F) :
    ∀ (n i : Nat) (lines ms : List Vec4i), lines.length - i = n →
      outerLoopChecked N i lines ms = some (outerLoop N i lines ms) := by
  intro n
  induction n using Nat.strong_induction_on with
  | _ n ih =>
    intro i lines ms hn
    by_cases hi : i < lines.length
    · have hin := innerLoopChecked_eq N lines[i] i (i + 1) lines ms (by omega)
      have hlen := innerLoop_length_le N lines[i] i (i + 1) lines ms
      rw [outerLoop_step N i lines ms hi, outerLoopChecked, dif_pos hi]
      simp only
      split
      · next hr => rw [hin] at hr; exact absurd hr (by simp)
      · next r hr =>
        rw [hin] at hr
        have hr' : innerLoop N lines[i] i (i + 1) lines ms = r := Option.some.inj hr
        rw [hr']
        rw [hr'] at hlen
        exact ih _ (by omega) (i + 1) _ _ rfl
    · rw [outerLoop_done N i lines ms hi, outerLoopChecked, dif_neg hi]

/-- The assertions of the inner loop with assertions are not vacuous: entered with `j ≤ i`
it stops at the first read. -/
theorem innerLoopChecked_violated (N : Numerics F) (a b : Vec4i) :
    innerLoopChecked N a 1 1 [a, b] [] = none := by
  rw [innerLoopChecked]
  simp

/-- Claim C17. For every finite segment list `mergeLines` terminates (the function is total)
and every index it uses is in bounds: run with the assertions `i < j < lines.size()` at each
read `lines[j]` and before each pair of erasures, index `i` present after the erasure of
index `j`, and `0 < j` at the decrement `--j`, it violates none and returns the same list. -/
theorem mergeLinesChecked_eq (N : Numerics F) (lines : List Vec4i) :
    mergeLinesChecked N lines = some (mergeLines N lines) := by
  unfold mergeLinesChecked mergeLines
  rw [outerLoopChecked_eq N (lines.length - 0) 0 lines [] rfl]
  rfl

end LineDetection

end FeatureDetection

/-! ## Single pass of the sweep -/

namespace FeatureDetection

namespace LineDetection

variable {F : Type}

/-- Claim C14. For three segments `a`, `b`, `c` of which `a` and `b` pass the merge test
(angle difference not above the threshold, midpoints not more than 10 apart), `mergeLines`
yields exactly `[c, (a.start, b.end)]`, whatever `c` is: no further merge is performed, also
when `c` passes the merge test with `a`, with `b` or with the merged segment. -/
theorem mergeLines_three_single_pass (N : Numerics F) (a b c : Vec4i)
    (hangle : N.gt (angleDiff N a b) N.angleThreshold = false)
    (hdist : midDistSq a b ≤ 100) :
    mergeLines N [a, b, c] = [c, ⟨a.x1, a.y1, b.x2, b.y2⟩] := by
  have ha : angleFar N a b = false := hangle
  have hd : distFar a b = false := by
    simp only [distFar, decide_eq_false_iff_not, not_lt]
    exact hdist
  unfold mergeLines
  rw [outerLoop_step N 0 [a, b, c] [] (by simp)]
  rw [innerLoop_merge N _ 0 1 [a, b, c] [] (by simp) (by simpa using ha) (by simpa using hd)]
  rw [innerLoop_done N _ 0 _ _ _ (by simp)]
  rw [outerLoop_done N 1 _ _ (by simp)]
  simp [mergedLine]

/-- Witness of C14: three parallel horizontal segments with midpoints `(10, 0)`, `(11, 0)`,
`(12, 0)`; the third one passes the merge test with the first, with the second and with the
merged segment, and is left as it is. -/
theorem mergeLines_three_single_pass_witness :
    (mergeTest microNumerics ⟨2, 0, 22, 0⟩ ⟨0, 0, 20, 0⟩ = true ∧
      mergeTest microNumerics ⟨2, 0, 22, 0⟩ ⟨1, 0, 21, 0⟩ = true ∧
      mergeTest microNumerics ⟨2, 0, 22, 0⟩ ⟨0, 0, 21, 0⟩ = true) ∧
      mergeLines microNumerics [⟨0, 0, 20, 0⟩, ⟨1, 0, 21, 0⟩, ⟨2, 0, 22, 0⟩] =
        [⟨2, 0, 22, 0⟩, ⟨0, 0, 21, 0⟩] :=
  ⟨by decide, mergeLines_three_single_pass microNumerics ⟨0, 0, 20, 0⟩ ⟨1, 0, 21, 0⟩
    ⟨2, 0, 22, 0⟩ (by decide) (by decide)⟩

/-- Claim C12, evaluated at a failing input. Two parallel horizontal segments near the row
`y = 0` followed by two near the row `y = 100`: the first two are merged, and the last two
both survive although they pass the merge test with each other; the one of position 2 slid
into index 0 when index 0 was erased, and the outer loop went on with index 1. -/
theorem mergeLines_leaves_mergeable_pair :
    mergeLines microNumerics
        [⟨0, 0, 20, 0⟩, ⟨1, 0, 21, 0⟩, ⟨100, 100, 120, 100⟩, ⟨101, 100, 121, 100⟩] =
      [⟨100, 100, 120, 100⟩, ⟨101, 100, 121, 100⟩, ⟨0, 0, 21, 0⟩] ∧
    mergeTest microNumerics ⟨100, 100, 120, 100⟩ ⟨101, 100, 121, 100⟩ = true := by
  constructor
  · simp [mergeLines, outerLoop, innerLoop, angleFar, distFar, angleDiff, rawAngle,
      microNumerics, atan2Micro, octantAngle, midDistSq, midPoint, halfRound, mergedLine]
  · decide

end LineDetection

end FeatureDetection

/-! ## When the sweep changes the list, and its first merge -/

namespace FeatureDetection

namespace LineDetection

variable {F : Type}

/-- The inner loop only appends to the merged segments. -/
theorem innerLoop_merged_prefix (N : Numerics F) (line1 : Vec4i) (i : Nat) :
    ∀ (j : Nat) (lines ms : List Vec4i),
      ∃ extra, (innerLoop N line1 i j lines ms).2 = ms ++ extra := by
  intro j lines ms
  induction j, lines, ms using innerLoop.induct N line1 i with
  | case1 j ls ms h line2 hfar ih =>
    rw [innerLoop_skip N line1 i j ls ms h (Or.inl hfar)]
    exact ih
  | case2 j ls ms h line2 hfar hd ih =>
    rw [innerLoop_skip N line1 i j ls ms h (Or.inr hd)]
    exact ih
  | case3 j ls ms h line2 hfar hd ih =>
    rw [innerLoop_merge N line1 i j ls ms h (by simpa using hfar) (by simpa using hd)]
    obtain ⟨extra, he⟩ := ih
    exact ⟨mergedLine line1 ls[j] :: extra, by rw [he]; simp⟩
  | case4 j ls ms h =>
    rw [innerLoop_done N line1 i j ls ms h]
    exact ⟨[], by simp⟩

/-- The sweep only appends to the merged segments. -/
theorem outerLoop_merged_prefix (N : Numerics F) :
    ∀ (n i : Nat) (lines ms : List Vec4i), lines.length - i = n →
      ∃ extra, (outerLoop N i lines ms).2 = ms ++ extra := by
  intro n
  induction n using Nat.strong_induction_on with
  | _ n ih =>
    intro i lines ms hn
    by_cases hi : i < lines.length
    · rw [outerLoop_step N i lines ms hi]
      have hlen := innerLoop_length_le N lines[i] i (i + 1) lines ms
      obtain ⟨e1, h1⟩ := innerLoop_merged_prefix N lines[i] i (i + 1) lines ms
      obtain ⟨e2, h2⟩ := ih _ (by omega) (i + 1)
        (innerLoop N lines[i] i (i + 1) lines ms).1
        (innerLoop N lines[i] i (i + 1) lines ms).2 rfl
      exact ⟨e1 ++ e2, by rw [h2, h1]; simp⟩
    · rw [outerLoop_done N i lines ms hi]
      exact ⟨[], by simp⟩

/-- The inner loop runs without a change over indices whose segments fail the merge test. -/
theorem innerLoop_skip_to (N : Numerics F) (line1 : Vec4i) (i : Nat) (lines ms : List Vec4i)
    (j1 : Nat) (hj1 : j1 ≤ lines.length) :
    ∀ (d j : Nat), j + d = j1 →
      (∀ (t : Nat) (ht : t < lines.length), j ≤ t → t < j1 →
        mergeTest N line1 lines[t] = false) →
      innerLoop N line1 i j lines ms = innerLoop N line1 i j1 lines ms := by
  intro d
  induction d with
  | zero =>
    intro j hj _
    have : j = j1 := by omega
    rw [this]
  | succ d ih =>
    intro j hj hskip
    have hjl : j < lines.length := by omega
    rw [innerLoop_skip N line1 i j lines ms hjl
      ((mergeTest_eq_false_iff N _ _).mp (hskip j hjl (le_refl j) (by omega)))]
    exact ih (j + 1) (by omega) (fun t ht h1 h2 => hskip t ht (by omega) h2)

/-- The sweep runs without a change over indices `i` all of whose pairs `(i, j)`, `i < j`,
fail the merge test. -/
theorem outerLoop_skip_to (N : Numerics F) (lines ms : List Vec4i) (i1 : Nat)
    (hi1 : i1 ≤ lines.length) :
    ∀ (d i : Nat), i + d = i1 →
      (∀ (s t : Nat) (hs : s < lines.length) (ht : t < lines.length), i ≤ s → s < i1 → s < t →
        mergeTest N lines[s] lines[t] = false) →
      outerLoop N i lines ms = outerLoop N i1 lines ms := by
  intro d
  induction d with
  | zero =>
    intro i hi _
    have : i = i1 := by omega
    rw [this]
  | succ d ih =>
    intro i hi hskip
    have hil : i < lines.length := by omega
    have hin : innerLoop N lines[i] i (i + 1) lines ms = (lines, ms) := by
      rw [innerLoop_skip_to N lines[i] i lines ms lines.length (le_refl _)
        (lines.length - (i + 1)) (i + 1) (by omega)
        (fun t ht h1 _ => hskip i t hil ht (le_refl i) (by omega) (by omega))]
      exact innerLoop_done N _ i _ lines ms (by omega)
    rw [outerLoop_step N i lines ms hil, hin]
    exact ih (i + 1) (by omega)
      (fun s t hs ht h1 h2 h3 => hskip s t hs ht (by omega) h2 h3)

/-- When no pair of the list passes the merge test, the sweep changes nothing. -/
theorem mergeLines_of_no_pair (N : Numerics F) (lines : List Vec4i)
    (h : lines.Pairwise (fun a b => mergeTest N a b = false)) : mergeLines N lines = lines := by
  unfold mergeLines
  rw [outerLoop_skip_to N lines [] lines.length (le_refl _) lines.length 0 (by omega)
    (fun s t hs ht _ _ hst => List.pairwise_iff_getElem.mp h s t hs ht hst)]
  rw [outerLoop_done N _ lines [] (by omega)]
  simp

/-- The first merged segment of the sweep comes from the first pair, in lexicographic order
of `(i, j)`, that passes the merge test. -/
theorem outerLoop_first_merge (N : Numerics F) (lines : List Vec4i) (i j : Nat)
    (hi : i < lines.length) (hj : j < lines.length) (hij : i < j)
    (hpass : mergeTest N lines[i] lines[j] = true)
    (hfirst : ∀ (s t : Nat) (hs : s < lines.length) (ht : t < lines.length), s < t →
      (s < i ∨ (s = i ∧ t < j)) → mergeTest N lines[s] lines[t] = false) :
    (outerLoop N 0 lines []).2.head? = some (mergedLine lines[i] lines[j]) := by
  rw [outerLoop_skip_to N lines [] i (by omega) i 0 (by omega)
    (fun s t hs ht _ h2 h3 => hfirst s t hs ht h3 (Or.inl h2))]
  rw [outerLoop_step N i lines [] hi]
  rw [innerLoop_skip_to N lines[i] i lines [] j (by omega) (j - (i + 1)) (i + 1) (by omega)
    (fun t ht h1 h2 => hfirst i t hi ht (by omega) (Or.inr ⟨rfl, h2⟩))]
  have hp := (mergeTest_eq_true_iff N _ _).mp hpass
  rw [innerLoop_merge N lines[i] i j lines [] hj hp.1 hp.2]
  obtain ⟨e1, h1⟩ := innerLoop_merged_prefix N lines[i] i (j - 1 + 1)
    ((lines.eraseIdx j).eraseIdx i) ([] ++ [mergedLine lines[i] lines[j]])
  obtain ⟨e2, h2⟩ := outerLoop_merged_prefix N _ (i + 1)
    (innerLoop N lines[i] i (j - 1 + 1) ((lines.eraseIdx j).eraseIdx i)
      ([] ++ [mergedLine lines[i] lines[j]])).1
    (innerLoop N lines[i] i (j - 1 + 1) ((lines.eraseIdx j).eraseIdx i)
      ([] ++ [mergedLine lines[i] lines[j]])).2 rfl
  rw [h2, h1]
  simp

/-- Among the pairs that pass the merge test there is a first one in lexicographic order. -/
theorem exists_first_pair (N : Numerics F) (lines : List Vec4i)
    (h : ¬ lines.Pairwise (fun a b => mergeTest N a b = false)) :
    ∃ (i j : Nat) (hi : i < lines.length) (hj : j < lines.length), i < j ∧
      mergeTest N lines[i] lines[j] = true ∧
      ∀ (s t : Nat) (hs : s < lines.length) (ht : t < lines.length), s < t →
        (s < i ∨ (s = i ∧ t < j)) → mergeTest N lines[s] lines[t] = false := by
  classical
  rw [List.pairwise_iff_getElem] at h
  push_neg at h
  obtain ⟨a, b, ha, hb, hab, hne⟩ := h
  have hex : ∃ i, ∃ (j : Nat) (hi : i < lines.length) (hj : j < lines.length), i < j ∧
      mergeTest N lines[i] lines[j] = true :=
    ⟨a, b, ha, hb, hab, by simpa using hne⟩
  have hi0 := Nat.find_spec hex
  have hex2 : ∃ j, ∃ (hi : Nat.find hex < lines.length) (hj : j < lines.length),
      Nat.find hex < j ∧ mergeTest N lines[Nat.find hex] lines[j] = true := hi0
  obtain ⟨hi, hj, hij, hpass⟩ := Nat.find_spec hex2
  refine ⟨Nat.find hex, Nat.find hex2, hi, hj, hij, hpass, ?_⟩
  intro s t hs ht hst hlex
  rcases hlex with hlt | ⟨heq, hlt⟩
  · by_contra hc
    exact Nat.find_min hex hlt ⟨t, hs, ht, hst, by simpa using hc⟩
  · subst heq
    by_contra hc
    exact Nat.find_min hex2 hlt ⟨hs, ht, hst, by simpa using hc⟩

/-- Claim C16. `mergeLines` returns its input unchanged exactly when no pair of input
segments (the earlier one first) passes the merge test as the code computes it; when some
pair passes, the result is strictly shorter than the input; and the first merged segment
comes from the first pair in lexicographic order of `(i, j)` that passes. -/
theorem mergeLines_unchanged_iff_no_pair (N : Numerics F) (lines : List Vec4i) :
    (mergeLines N lines = lines ↔ lines.Pairwise (fun a b => mergeTest N a b = false)) ∧
      (¬ lines.Pairwise (fun a b => mergeTest N a b = false) →
        (mergeLines N lines).length < lines.length) ∧
      (∀ (i j : Nat) (hi : i < lines.length) (hj : j < lines.length), i < j →
        mergeTest N lines[i] lines[j] = true →
        (∀ (s t : Nat) (hs : s < lines.length) (ht : t < lines.length), s < t →
          (s < i ∨ (s = i ∧ t < j)) → mergeTest N lines[s] lines[t] = false) →
        (outerLoop N 0 lines []).2.head? = some (mergedLine lines[i] lines[j])) := by
  have hshort : ¬ lines.Pairwise (fun a b => mergeTest N a b = false) →
      (mergeLines N lines).length < lines.length := by
    intro h
    obtain ⟨i, j, hi, hj, hij, hpass, hfirst⟩ := exists_first_pair N lines h
    have hhead := outerLoop_first_merge N lines i j hi hj hij hpass hfirst
    have hk : 0 < (outerLoop N 0 lines []).2.length := by
      cases hm : (outerLoop N 0 lines []).2 with
      | nil => rw [hm] at hhead; simp at hhead
      | cons m ms => simp
    have hc := outerLoop_count N (lines.length - 0) 0 lines [] rfl
    simp only [List.length_nil, Nat.mul_zero, Nat.add_zero] at hc
    unfold mergeLines
    simp only [List.length_append]
    omega
  refine ⟨⟨?_, mergeLines_of_no_pair N lines⟩, hshort, ?_⟩
  · intro heq
    by_contra h
    have := hshort h
    rw [heq] at this
    exact lt_irrefl _ this
  · intro i j hi hj hij hpass hfirst
    exact outerLoop_first_merge N lines i j hi hj hij hpass hfirst

end LineDetection

end FeatureDetection

/-! ## Shape of the result: surviving originals, then merged segments -/

namespace FeatureDetection

namespace LineDetection

variable {F : Type}

/-- A sublist `a :: l` of `L` places `a` at some position of `L` and `l` after it. -/
theorem cons_sublist_position (a : Vec4i) (l : List Vec4i) :
    ∀ (L : List Vec4i), (a :: l).Sublist L →
      ∃ (p : Nat) (hp : p < L.length), L[p] = a ∧ l.Sublist (L.drop (p + 1)) := by
  intro L
  induction L with
  | nil =>
    intro h
    simp at h
  | cons b L ih =>
    intro h
    rw [List.sublist_cons_iff] at h
    rcases h with h | ⟨r, hr, hsub⟩
    · obtain ⟨p, hp, hget, hdrop⟩ := ih h
      exact ⟨p + 1, by simp; omega, by simpa using hget, by simpa using hdrop⟩
    · have hab : a = b := by
        have := congrArg List.head? hr
        simpa using this
      have hlr : l = r := by
        have := congrArg List.tail hr
        simpa using this
      subst hab
      subst hlr
      exact ⟨0, by simp, by simp, by simpa using hsub⟩

/-- A segment found after position `p` of the input, joined to the segment of position `p`,
gives a merged segment from a later pair. -/
theorem fromLaterPair_of_mem_drop (input : List Vec4i) (p : Nat) (hp : p < input.length)
    (b : Vec4i) (hb : b ∈ input.drop (p + 1)) :
    FromLaterPair input (mergedLine input[p] b) := by
  rw [List.mem_drop_iff_getElem] at hb
  obtain ⟨t, ht, hget⟩ := hb
  refine ⟨p, p + 1 + t, hp, by omega, by omega, ?_⟩
  rw [hget]
  simp [mergedLine]

/-- The invariant of the inner loop: the working list stays a sublist of the input, its part
after index `i` stays within the part of the input after the position `p` of `line1`, and
every merged segment comes from a later pair. -/
theorem innerLoop_shape (N : Numerics F) (input : List Vec4i) (i p : Nat)
    (hp : p < input.length) :
    ∀ (j : Nat) (lines ms : List Vec4i), i < j → lines.Sublist input →
      (lines.drop (i + 1)).Sublist (input.drop (p + 1)) →
      (∀ m ∈ ms, FromLaterPair input m) →
      (innerLoop N input[p] i j lines ms).1.Sublist input ∧
        ∀ m ∈ (innerLoop N input[p] i j lines ms).2, FromLaterPair input m := by
  intro j lines ms
  induction j, lines, ms using innerLoop.induct N input[p] i with
  | case1 j ls ms h line2 hfar ih =>
    intro hij hsub hdrop hms
    rw [innerLoop_skip N _ i j ls ms h (Or.inl hfar)]
    exact ih (by omega) hsub hdrop hms
  | case2 j ls ms h line2 hfar hd ih =>
    intro hij hsub hdrop hms
    rw [innerLoop_skip N _ i j ls ms h (Or.inr hd)]
    exact ih (by omega) hsub hdrop hms
  | case3 j ls ms h line2 hfar hd ih =>
    intro hij hsub hdrop hms
    rw [innerLoop_merge N _ i j ls ms h (by simpa using hfar) (by simpa using hd)]
    have hj1 : j - 1 + 1 = j := by omega
    rw [hj1] at ih ⊢
    have herase : ((ls.eraseIdx j).eraseIdx i).Sublist ls :=
      (List.eraseIdx_sublist _ _).trans (List.eraseIdx_sublist _ _)
    have hmem : ls[j] ∈ ls.drop (i + 1) := by
      rw [List.mem_drop_iff_getElem]
      exact ⟨j - (i + 1), by omega, by congr 1; omega⟩
    apply ih hij (herase.trans hsub) ((herase.drop (i + 1)).trans hdrop)
    intro m hm
    rw [List.mem_append, List.mem_singleton] at hm
    rcases hm with hm | hm
    · exact hms m hm
    · rw [hm]
      exact fromLaterPair_of_mem_drop input p hp ls[j] (hdrop.subset hmem)
  | case4 j ls ms h =>
    intro _ hsub _ hms
    rw [innerLoop_done N _ i j ls ms h]
    exact ⟨hsub, hms⟩

/-- The invariant of the sweep: the working list is a sublist of the input and every merged
segment comes from a later pair. -/
theorem outerLoop_shape (N : Numerics F) (input : List Vec4i) :
    ∀ (n i : Nat) (lines ms : List Vec4i), lines.length - i = n → lines.Sublist input →
      (∀ m ∈ ms, FromLaterPair input m) →
      (outerLoop N i lines ms).1.Sublist input ∧
        ∀ m ∈ (outerLoop N i lines ms).2, FromLaterPair input m := by
  intro n
  induction n using Nat.strong_induction_on with
  | _ n ih =>
    intro i lines ms hn hsub hms
    by_cases hi : i < lines.length
    · rw [outerLoop_step N i lines ms hi]
      have hlen := innerLoop_length_le N lines[i] i (i + 1) lines ms
      have hcons : (lines[i] :: lines.drop (i + 1)).Sublist input := by
        rw [← List.drop_eq_getElem_cons hi]
        exact (List.drop_sublist i lines).trans hsub
      obtain ⟨p, hp, hget, hdrop⟩ := cons_sublist_position _ _ input hcons
      have hinner := innerLoop_shape N input i p hp (i + 1) lines ms (by omega) hsub hdrop hms
      rw [hget] at hinner
      exact ih _ (by omega) (i + 1) _ _ rfl hinner.1 hinner.2
    · rw [outerLoop_done N i lines ms hi]
      exact ⟨hsub, hms⟩

/-- Claim C13. The result of `mergeLines` is `S ++ M`, where `S`, the working list left by the
sweep, is a subsequence of the input in its original order, and `M` is the list of merged
segments in the order of their creation; every element of `M` runs from the start point of
the input segment at some position `p` to the end point of the input segment at some position
`q > p`. -/
theorem mergeLines_shape (N : Numerics F) (lines : List Vec4i) :
    mergeLines N lines = (outerLoop N 0 lines []).1 ++ (outerLoop N 0 lines []).2 ∧
      (outerLoop N 0 lines []).1.Sublist lines ∧
      ∀ m ∈ (outerLoop N 0 lines []).2,
        ∃ (p q : Nat) (hp : p < lines.length) (hq : q < lines.length), p < q ∧
          m.x1 = lines[p].x1 ∧ m.y1 = lines[p].y1 ∧ m.x2 = lines[q].x2 ∧ m.y2 = lines[q].y2 := by
  have h := outerLoop_shape N lines (lines.length - 0) 0 lines [] rfl (List.Sublist.refl _)
    (by simp)
  exact ⟨rfl, h.1, h.2⟩

end LineDetection

end FeatureDetection

/-! ## Loading the image -/

namespace FeatureDetection

namespace CommonProcesses

/-- Claim C11. `readRGBFromFile` throws exactly when the decoded image is empty or its
channel count is neither 3 nor 4; when it throws, the message contains the file name and
neither `RGBPic` nor `orginalPic` is modified; when it does not, both are set to (copies of)
the decoded image. -/
theorem readRGBFromFile_spec (imread : String → Mat) (s : CommonProcesses)
    (filename : String) :
    ((readRGBFromFile imread s filename).2.isSome = true ↔
        ((imread filename).empty = true ∨
          ((imread filename).channels ≠ 3 ∧ (imread filename).channels ≠ 4))) ∧
      (∀ msg : String, (readRGBFromFile imread s filename).2 = some msg →
        List.IsInfix filename.data msg.data ∧ (readRGBFromFile imread s filename).1 = s) ∧
      ((readRGBFromFile imread s filename).2 = none →
        (readRGBFromFile imread s filename).1.RGBPic = imread filename ∧
          (readRGBFromFile imread s filename).1.orginalPic = imread filename) := by
  unfold readRGBFromFile
  by_cases hc : ((imread filename).empty ||
      ((imread filename).channels != 3 && (imread filename).channels != 4)) = true
  · simp only [hc, if_true]
    refine ⟨?_, ?_, ?_⟩
    · simpa using hc
    · intro msg hmsg
      simp only [Option.some.injEq] at hmsg
      refine ⟨?_, trivial⟩
      rw [← hmsg, String.data_append]
      exact (List.suffix_append _ _).isInfix
    · intro h
      simp at h
  · have hc' := hc
    simp only [Bool.not_eq_true] at hc'
    simp only [hc', Bool.false_eq_true, if_false]
    refine ⟨?_, ?_, ?_⟩
    · simpa using hc
    · intro msg hmsg
      simp at hmsg
    · intro _
      exact ⟨rfl, rfl⟩

/-- The two outcomes of `readRGBFromFile` on concrete decoders: a missing file leaves the
state as it was and reports the name, a 3-channel image is stored in both fields. -/
theorem readRGBFromFile_examples :
    readRGBFromFile (fun _ => ⟨0, 0, 0, []⟩) ⟨⟨2, 1, 3, [1, 2]⟩, ⟨2, 1, 3, [1, 2]⟩⟩ "color.png" =
        (⟨⟨2, 1, 3, [1, 2]⟩, ⟨2, 1, 3, [1, 2]⟩⟩,
          some ("Could not open or find the image, or the number of channels is not supported: "
            ++ "color.png")) ∧
      readRGBFromFile (fun _ => ⟨1, 1, 3, [9]⟩) ⟨⟨2, 1, 3, [1, 2]⟩, ⟨2, 1, 3, [1, 2]⟩⟩
          "color.png" = (⟨⟨1, 1, 3, [9]⟩, ⟨1, 1, 3, [9]⟩⟩, none) := by
  constructor <;> rfl

end CommonProcesses

end FeatureDetection
